import Mathlib

/-!
Verification development for the WaterTAP UI API module
(`src/watertap/ui/api.py`): a shallow embedding of the
`BlockInterface` / `FlowsheetInterface` classes and the free functions
of that module, together with theorems settling the specification
claims about them.

Modelling conventions
- Python values appearing in documents (JSON numbers and strings) are
  modelled by `SVal`; numeric values are modelled as integers (the code
  itself never computes with the numbers, it only moves them around).
- Pyomo blocks are modelled by `PBlock`: a name, an optional doc
  string, named variables, named sub-blocks (the `component_map`
  children, whose keys are also the attribute names used by `getattr`),
  a list of attribute names bound to `None` (so that the
  `variable_obj is None` test in `_load_variables` is representable),
  and the optionally attached interface configuration (the `block.ui`
  back-reference written by `set_block_interface`).
- Mutation is modelled by returning updated values; fallible calls
  return `Except PyErr` or pair their result with `Option PyErr` when
  the partially mutated state on error is itself observable
  (the action registry).
- `run_action` recurses through the dependency graph; as in Python the
  recursion is not structurally bounded, so those functions take a fuel
  argument and report `.fuelExhausted` when it runs out.
-/

/-- A scalar JSON-compatible value (number or string). -/
inductive SVal where
  | num (n : Int)
  | str (s : String)
deriving DecidableEq, Repr

/-- An index tuple of an indexed variable, rendered as a tuple of
numbers/strings (`tuple(idx)` in `_variable_value`). -/
abbrev VIndex := List SVal

/-- The value held by a (model of a) Pyomo `Var`: either a scalar or an
indexed family given as an ordered list of (index, value) pairs (the
order models the iteration order of `v.index_set()`). -/
inductive VarVal where
  | scalar (v : SVal)
  | indexed (entries : List (VIndex × SVal))
deriving DecidableEq, Repr

/-- Model of a Pyomo `Var` attribute of a block: its current value(s),
its units (`v.get_units()`, `none` when the variable has no units) and
its doc string (`v.doc`).  The variable's `local_name` is the key under
which it is stored in the enclosing block. -/
structure PVar where
  val : VarVal
  units : Option String
  docstr : Option String
deriving DecidableEq, Repr

/-- One entry of the `variables` list of a block interface CONFIG
(the `_var_config` ConfigDict): the variable name plus optional
display-name/description/units overrides. -/
structure VarConfEntry where
  name : String
  display_name : Option String := none
  description : Option String := none
  units : Option String := none
deriving DecidableEq, Repr

/-- A block-interface configuration after `BlockInterface._init` has
applied its dynamic defaults: display name, description and category
are definitely present, plus the ordered variable-export list.
(`vars` is the CONFIG key `"variables"`; Lean reserves that word.) -/
structure UIConfig where
  display_name : String
  description : String
  category : String
  vars : List VarConfEntry
deriving DecidableEq, Repr

/-- Model of a Pyomo block tree node.  `vars` and `subBlocks` are the
`Var` attributes and the child `Block` attributes (the latter are also
the entries of `component_map(ctype=Block)`, in insertion order, keyed
by their local names).  `noneAttrs` lists attribute names bound to the
Python value `None`.  `ui` is the interface attached by
`set_block_interface` (only its configuration is ever consulted by the
tree walks, so we store just the `UIConfig`). -/
inductive PBlock where
  | mk (name : String) (docstr : Option String)
       (vars : List (String × PVar))
       (subBlocks : List PBlock)
       (noneAttrs : List String)
       (ui : Option UIConfig)

def PBlock.name : PBlock → String
  | .mk n _ _ _ _ _ => n

def PBlock.docstr : PBlock → Option String
  | .mk _ d _ _ _ _ => d

def PBlock.vars : PBlock → List (String × PVar)
  | .mk _ _ v _ _ _ => v

def PBlock.subBlocks : PBlock → List PBlock
  | .mk _ _ _ s _ _ => s

def PBlock.noneAttrs : PBlock → List String
  | .mk _ _ _ _ a _ => a

def PBlock.ui : PBlock → Option UIConfig
  | .mk _ _ _ _ _ u => u

/-- Replace the attached interface configuration
(`set_block_interface(block, obj)`, i.e. `block.ui = obj`;
re-attaching overwrites the previous interface). -/
def PBlock.withUI : PBlock → Option UIConfig → PBlock
  | .mk n d v s a _, u => .mk n d v s a u

/-- Replace the variable list of a block. -/
def PBlock.withVars : PBlock → List (String × PVar) → PBlock
  | .mk n d _ s a u, v => .mk n d v s a u

/-- Replace the sub-block list of a block. -/
def PBlock.withSubs : PBlock → List PBlock → PBlock
  | .mk n d v _ a u, s => .mk n d v s a u

/-- Look up a `Var` attribute by name. -/
def PBlock.lookupVar (b : PBlock) (n : String) : Option PVar :=
  (b.vars.find? (fun p => p.1 == n)).map (·.2)

/-- Look up a child `Block` attribute by name. -/
def PBlock.lookupSub (b : PBlock) (n : String) : Option PBlock :=
  b.subBlocks.find? (fun sb => sb.name == n)

/-- The result of a Python `getattr` on a block, for the attribute
kinds the module manipulates. -/
inductive PyAttr where
  | var (v : PVar)
  | blk (b : PBlock)
  | noneVal

/-- `getattr(block, n)`: `none` models an `AttributeError`.  A block's
attribute namespace is flat; the model searches variables, then child
blocks, then `None`-valued attributes (well-formed trees keep these
name sets disjoint, so the order is immaterial there). -/
def PBlock.getattr (b : PBlock) (n : String) : Option PyAttr :=
  match b.lookupVar n with
  | some v => some (.var v)
  | none =>
    match b.lookupSub n with
    | some sb => some (.blk sb)
    | none => if n ∈ b.noneAttrs then some .noneVal else none

/-- The Python exceptions raised by the module. -/
inductive PyErr where
  | keyError (msg : String)
  | valueError (msg : String)
  | typeError (msg : String)
  | attributeError
  | fuelExhausted
deriving DecidableEq, Repr

def PyErr.isKeyError : PyErr → Bool
  | .keyError _ => true
  | _ => false

def PyErr.isValueError : PyErr → Bool
  | .valueError _ => true
  | _ => false

def PyErr.isTypeError : PyErr → Bool
  | .typeError _ => true
  | _ => false

/-- Association-list lookup, modelling `d[k]` / `k in d` on a Python
dict with string keys. -/
def lookupA {α : Type} (l : List (String × α)) (k : String) : Option α :=
  (l.find? (fun p => p.1 == k)).map (·.2)

/-- Dict assignment `d[k] = v`: replaces the value in place when the
key exists (keeping its position, as Python dicts do), otherwise
appends the new key at the end. -/
def assocSet {α : Type} (l : List (String × α)) (k : String) (v : α) :
    List (String × α) :=
  if (l.find? (fun p => p.1 == k)).isSome then
    l.map (fun p => if p.1 == k then (k, v) else p)
  else l ++ [(k, v)]

/-! ## Document model

The serialized form produced by `as_dict` / consumed by `update`
(`BlockSchemaDefinition.BLOCK_SCHEMA`).  Typed values of these
structures are schema-conformant by construction, with the single
exception of the root document's `blocks` key, which `as_dict` can in
principle omit (its block map starts as an empty dict), so it is
`Option`-valued there. -/

/-- The `value` field of a document variable entry: a bare
number/string, or a list of `{index, value}` pairs for an indexed
variable (per-item `units` of the input form are ignored by both
`_load_variables` and `_variable_value`, so they are not modelled). -/
inductive DocValue where
  | scalar (v : SVal)
  | indexed (entries : List (VIndex × SVal))
deriving DecidableEq, Repr

/-- A document variable entry; only `name` is required by the schema. -/
structure DocVar where
  name : String
  value : Option DocValue := none
  display_name : Option String := none
  description : Option String := none
  units : Option String := none
deriving DecidableEq, Repr

/-- A document block node.  `name` and `blocks` are schema-required;
the nodes synthesized for interface-less intermediate blocks carry
only these two keys, so the other fields are optional. -/
inductive DocBlock where
  | mk (name : String)
       (display_name : Option String)
       (description : Option String)
       (category : Option String)
       (docVars : Option (List DocVar))
       (blocks : List DocBlock)

def DocBlock.name : DocBlock → String
  | .mk n _ _ _ _ _ => n

def DocBlock.display_name : DocBlock → Option String
  | .mk _ d _ _ _ _ => d

def DocBlock.description : DocBlock → Option String
  | .mk _ _ d _ _ _ => d

def DocBlock.category : DocBlock → Option String
  | .mk _ _ _ c _ _ => c

def DocBlock.docVars : DocBlock → Option (List DocVar)
  | .mk _ _ _ _ v _ => v

def DocBlock.blocks : DocBlock → List DocBlock
  | .mk _ _ _ _ _ b => b

def DocBlock.withBlocks : DocBlock → List DocBlock → DocBlock
  | .mk n d e c v _, bs => .mk n d e c v bs

/-- The root document: the fixed name `"__root__"` written by
`as_dict`, the top-level `blocks` list, and the metadata map (every
top-level key besides `name` and `blocks`; `update` rebuilds it from
exactly those keys, so it is kept apart and never contains them). -/
structure RootDoc where
  name : String
  blocks : Option (List DocBlock)
  meta : List (String × SVal)

/-- One recorded "missing" variable.  `_load_variables` appends the
whole document entry, while the interface-less branch of `_load`
records just the names, so both shapes occur. -/
inductive MissingItem where
  | entry (d : DocVar)
  | named (n : String)
deriving DecidableEq, Repr

/-- The `_var_diff` record written by `update`: the per-block-path
missing/extra variable maps. -/
structure VarDiff where
  missing : List (String × List MissingItem)
  extra : List (String × List String)
deriving DecidableEq, Repr

/-- The raw options dict handed to the `BlockInterface`/
`FlowsheetInterface` constructor, before `_init` applies defaults. -/
structure RawOptions where
  display_name : Option String := none
  description : Option String := none
  category : Option String := none
  vars : List VarConfEntry := []

/-- Python string truthiness used by `x or y` defaulting: an absent or
empty string falls back to the default. -/
def pyStrOr (o : Option String) (dflt : String) : String :=
  match o with
  | some s => if s = "" then dflt else s
  | none => dflt

/-- `BlockInterface._init`'s dynamic defaulting of the options dict
against the bound block: display name defaults to the block's name,
description to the block's doc string (or `"none"`), category to
`"default"`. -/
def initConfig (opts : RawOptions) (b : PBlock) : UIConfig :=
  { display_name := opts.display_name.getD b.name
  , description := opts.description.getD (pyStrOr b.docstr "none")
  , category := opts.category.getD "default"
  , vars := opts.vars }

/-! ## Flowsheet interface state

`FlowsheetInterface.__init__` builds the action tables; `set_block`
later binds the root block (attaching the interface configuration to
it, as `_init` calls `set_block_interface`).  Registered action
functions are opaque to the model: an action maps to `none` (the
`(None, None)` placeholder) or `some f` with `f` a function identifier;
invoking a function is recorded in a trace of identifiers, and the
keyword-argument dict stored by `set_action` plays no role in any
claim, so it is not modelled. -/

def buildAction : String := "build"

def solveAction : String := "solve"

/-- `WorkflowActions.results` is the string `"get-results"`. -/
def resultsAction : String := "get-results"

/-- The initial dependency table, `WorkflowActions.deps`. -/
def initialDeps : List (String × List String) :=
  [(buildAction, []), (solveAction, [buildAction]),
   (resultsAction, [solveAction])]

structure FState where
  block : Option PBlock
  savedOptions : RawOptions
  meta : List (String × SVal)
  varDiff : Option VarDiff
  actions : List (String × Option String)
  actionsDeps : List (String × List String)
  actionsRun : List String

/-- `FlowsheetInterface(options)`: unbound block, empty metadata, no
variable diff yet, the fixed `ACTIONS` (`build`, `solve`) registered
with no functions, a copy of `WorkflowActions.deps`, and nothing run. -/
def flowsheetNew (opts : RawOptions) : FState :=
  { block := none
  , savedOptions := opts
  , meta := []
  , varDiff := none
  , actions := [(buildAction, none), (solveAction, none)]
  , actionsDeps := initialDeps
  , actionsRun := [] }

/-- `set_block(block)`: runs `_init` with the saved options, which
computes the defaulted config and stores the interface on the block
(`set_block_interface`). -/
def setBlock (st : FState) (b : PBlock) : FState :=
  { st with block := some (b.withUI (some (initConfig st.savedOptions b))) }

/-! ## Action registry -/

/-- `_check_action`: `KeyError` for a name that was never registered. -/
def checkAction (st : FState) (name : String) : Option PyErr :=
  if (lookupA st.actions name).isNone then
    some (.keyError ("Unknown action. name=" ++ name))
  else none

/-- The dependency-verification loop of `add_action_type`: for each
listed dependency, first the membership test (against `_actions`,
which at this point already contains the new name, and
`_actions_deps`), raising `KeyError`, then the self-dependency test,
raising `ValueError`. -/
def checkDeps (known : List String) (name : String) :
    List String → Option PyErr
  | [] => none
  | d :: rest =>
    if d ∉ known then
      some (.keyError ("Dependent action not found. name=" ++ d))
    else if d = name then
      some (.valueError "Action cannot be dependent on itself")
    else checkDeps known name rest

/-- `add_action_type(action_type, deps)`.  A no-op when the name is
already registered.  Otherwise the name is entered into `_actions`
(with no function) *before* the dependency list is verified, so a
verification failure leaves that entry behind; only on success is the
dependency list recorded. -/
def addActionType (st : FState) (name : String)
    (deps : Option (List String)) : FState × Option PyErr :=
  if (lookupA st.actions name).isSome then (st, none)
  else
    let st1 := { st with actions := st.actions ++ [(name, none)] }
    match deps with
    | none => ({ st1 with actionsDeps := assocSet st1.actionsDeps name [] }, none)
    | some ds =>
      let known := st1.actions.map (·.1) ++ st1.actionsDeps.map (·.1)
      match checkDeps known name ds with
      | some e => (st1, some e)
      | none =>
        ({ st1 with actionsDeps := assocSet st1.actionsDeps name ds }, none)

/-- `set_action(name, func)`: `_check_action`, then store the function. -/
def setAction (st : FState) (name : String) (func : String) :
    FState × Option PyErr :=
  match checkAction st name with
  | some e => (st, some e)
  | none => ({ st with actions := assocSet st.actions name (some func) }, none)

/-- `get_action(name)`: `_check_action`, then return the stored entry. -/
def getAction (st : FState) (name : String) :
    Except PyErr (Option String) :=
  match checkAction st name with
  | some e => .error e
  | none =>
    match lookupA st.actions name with
    | some f => .ok f
    | none => .error (.keyError "unreachable: checked above")

/-- `_action_clear_depends_on(name)` followed by adding `name`
(together `_action_set_was_run`): clear the run status of every action
that transitively depends on `name`, then mark `name` run.  The
worklist loop of the source is replicated with a fuel bound (the
Python loop can run forever on a cyclic dependency table, which
registration happens to rule out but nothing checks). -/
def clearDependsOnAux (deps : List (String × List String)) :
    Nat → List String → List String → List String
  | 0, run, _ => run
  | _ + 1, run, [] => run
  | fuel + 1, run, aff :: affRest =>
    let run' := if aff ∈ run then run.erase aff else run
    let more := (deps.filter (fun p => aff ∈ p.2)).map (·.1)
    -- the source pops from the end of `affected` and extends it at the
    -- end; head-of-list is our stack top, so new work is prepended in
    -- reverse
    clearDependsOnAux deps fuel run' (more.reverse ++ affRest)

def actionSetWasRun (fuel : Nat) (st : FState) (name : String) : FState :=
  let affected := (st.actionsDeps.filter (fun p => name ∈ p.2)).map (·.1)
  let run' := clearDependsOnAux st.actionsDeps fuel st.actionsRun affected.reverse
  { st with actionsRun := run' ++ [name] }

/-- A step outcome of the action runner: the (possibly mutated) state,
the trace of function identifiers invoked (in invocation order), and
the raised exception, if any.  Python mutates the interface in place,
so the state on error is the partially mutated one. -/
abbrev RunResult := FState × List String × Option PyErr

mutual

/-- `run_action(name)`: `_check_action`; an immediate `None` (no
invocation, no mutation) when the action is already marked run;
otherwise run the not-yet-run dependencies first (`_run_deps`), then
fail with `ValueError` when no function is registered, otherwise
invoke the function, and mark the action run (which first clears the
run status of everything depending on it). -/
def runAction : Nat → FState → String → RunResult
  | 0, st, _ => (st, [], some .fuelExhausted)
  | fuel + 1, st, name =>
    match checkAction st name with
    | some e => (st, [], some e)
    | none =>
      if name ∈ st.actionsRun then (st, [], none)
      else
        match runDeps fuel st name with
        | (st1, tr1, some e) => (st1, tr1, some e)
        | (st1, tr1, none) =>
          match lookupA st1.actions name with
          | none => (st1, tr1, some (.keyError "unreachable: checked"))
          | some none => (st1, tr1, some (.valueError ("Undefined action. name=" ++ name)))
          | some (some f) =>
            (actionSetWasRun (fuel + 1) st1 name, tr1 ++ [f], none)

/-- `_run_deps(name)`: look up the dependency list (a plain dict
access, so a `KeyError` when `name` has no entry — which happens for
an action left behind by a failed `add_action_type`), then run each
not-yet-run dependency in order. -/
def runDeps : Nat → FState → String → RunResult
  | 0, st, _ => (st, [], some .fuelExhausted)
  | fuel + 1, st, name =>
    match lookupA st.actionsDeps name with
    | none => (st, [], some (.keyError ("deps of " ++ name)))
    | some ds => runDepsList fuel st ds

def runDepsList : Nat → FState → List String → RunResult
  | 0, st, _ => (st, [], some .fuelExhausted)
  | _ + 1, st, [] => (st, [], none)
  | fuel + 1, st, d :: rest =>
    if d ∈ st.actionsRun then runDepsList fuel st rest
    else
      match runAction fuel st d with
      | (st1, tr1, some e) => (st1, tr1, some e)
      | (st1, tr1, none) =>
        match runDepsList fuel st1 rest with
        | (st2, tr2, e2) => (st2, tr1 ++ tr2, e2)

end

/-! ## Lemmas about the action registry -/

theorem actionSetWasRun_actions (fuel : Nat) (st : FState) (name : String) :
    (actionSetWasRun fuel st name).actions = st.actions := rfl

theorem actionSetWasRun_deps (fuel : Nat) (st : FState) (name : String) :
    (actionSetWasRun fuel st name).actionsDeps = st.actionsDeps := rfl

mutual

/-- Running an action mutates only the run-status set: the action
table and dependency table are untouched. -/
theorem runAction_tables (fuel : Nat) (st : FState) (name : String) :
    (runAction fuel st name).1.actions = st.actions ∧
    (runAction fuel st name).1.actionsDeps = st.actionsDeps := by
  match fuel with
  | 0 => simp [runAction]
  | fuel + 1 =>
    simp only [runAction]
    cases hchk : checkAction st name with
    | some e => simp
    | none =>
      simp only
      by_cases hrun : name ∈ st.actionsRun
      · simp [hrun]
      · simp only [hrun, if_false]
        have hd := runDeps_tables fuel st name
        rcases hds : runDeps fuel st name with ⟨st1, tr1, e1⟩
        simp only [hds] at hd
        cases e1 with
        | some e => simpa using hd
        | none =>
          simp only
          cases hlk : lookupA st1.actions name with
          | none => simpa using hd
          | some fo =>
            cases fo with
            | none => simpa using hd
            | some f =>
              simpa [actionSetWasRun_actions, actionSetWasRun_deps] using hd

theorem runDeps_tables (fuel : Nat) (st : FState) (name : String) :
    (runDeps fuel st name).1.actions = st.actions ∧
    (runDeps fuel st name).1.actionsDeps = st.actionsDeps := by
  match fuel with
  | 0 => simp [runDeps]
  | fuel + 1 =>
    simp only [runDeps]
    cases lookupA st.actionsDeps name with
    | none => simp
    | some ds => exact runDepsList_tables fuel st ds

theorem runDepsList_tables (fuel : Nat) (st : FState) (ds : List String) :
    (runDepsList fuel st ds).1.actions = st.actions ∧
    (runDepsList fuel st ds).1.actionsDeps = st.actionsDeps := by
  match fuel, ds with
  | 0, _ => simp [runDepsList]
  | _ + 1, [] => simp [runDepsList]
  | fuel + 1, d :: rest =>
    simp only [runDepsList]
    by_cases hrun : d ∈ st.actionsRun
    · simp only [hrun, if_true]
      exact runDepsList_tables fuel st rest
    · simp only [hrun, if_false]
      have ha := runAction_tables fuel st d
      rcases hra : runAction fuel st d with ⟨st1, tr1, e1⟩
      simp only [hra] at ha
      cases e1 with
      | some e => simpa using ha
      | none =>
        have hl := runDepsList_tables fuel st1 rest
        rcases hrl : runDepsList fuel st1 rest with ⟨st2, tr2, e2⟩
        simp only [hrl] at hl
        simp only [hrl]
        exact ⟨hl.1.trans ha.1, hl.2.trans ha.2⟩

end

/-- The key set against which `add_action_type` verifies dependencies:
the action table immediately after the new name was entered, plus the
dependency table. -/
def knownAfterAdd (st : FState) (name : String) : List String :=
  (st.actions ++ [(name, (none : Option String))]).map (·.1) ++
    st.actionsDeps.map (·.1)

theorem checkDeps_keyError (known : List String) (name : String)
    (ds : List String) (hn : name ∉ ds) (hx : ∃ d ∈ ds, d ∉ known) :
    ∃ m, checkDeps known name ds = some (.keyError m) := by
  induction ds with
  | nil => simp at hx
  | cons d rest ih =>
    by_cases hk : d ∈ known
    · have hdn : ¬d = name := by
        rintro rfl; exact hn (List.mem_cons_self _ _)
      have step : checkDeps known name (d :: rest) = checkDeps known name rest := by
        simp [checkDeps, hk, hdn]
      rw [step]
      apply ih (fun h => hn (List.mem_cons_of_mem _ h))
      rcases hx with ⟨d0, hd0, hd0k⟩
      rcases List.mem_cons.mp hd0 with rfl | hmem
      · exact absurd hk hd0k
      · exact ⟨d0, hmem, hd0k⟩
    · exact ⟨"Dependent action not found. name=" ++ d, by simp [checkDeps, hk]⟩

theorem checkDeps_selfDep (known : List String) (name : String)
    (ds : List String) (hmem : name ∈ ds) (hall : ∀ d ∈ ds, d ∈ known) :
    checkDeps known name ds =
      some (.valueError "Action cannot be dependent on itself") := by
  induction ds with
  | nil => simp at hmem
  | cons d rest ih =>
    have hk : d ∈ known := hall d (List.mem_cons_self _ _)
    by_cases hd : d = name
    · subst hd; simp [checkDeps, hk]
    · have step : checkDeps known name (d :: rest) = checkDeps known name rest := by
        simp [checkDeps, hk, hd]
      rw [step]
      rcases List.mem_cons.mp hmem with rfl | hmem'
      · exact absurd rfl hd
      · exact ih hmem' (fun x hx => hall x (List.mem_cons_of_mem _ hx))

/-! ## Claims C6, C7, C4 (action registry) -/

/-- Claim C6: for every registered action name that is already marked
run, `run_action(name)` returns `None` immediately — no function is
invoked (empty trace), no dependency is run, and the state (in
particular every action's run status) is unchanged. -/
theorem c6_run_action_already_run_noop (fuel : Nat) (st : FState)
    (name : String) (hreg : (lookupA st.actions name).isSome = true)
    (hrun : name ∈ st.actionsRun) :
    runAction (fuel + 1) st name = (st, [], none) := by
  have hchk : checkAction st name = none := by
    rcases h : lookupA st.actions name with _ | v
    · rw [h] at hreg; simp at hreg
    · simp [checkAction, h]
  simp [runAction, hchk, hrun]

/-- Witness for C6 at a concrete state in which `build` is marked run. -/
theorem c6_witness :
    (lookupA ({ flowsheetNew {} with actionsRun := [buildAction] } : FState).actions
        buildAction).isSome = true ∧
    buildAction ∈ ({ flowsheetNew {} with actionsRun := [buildAction] } : FState).actionsRun ∧
    runAction 4 { flowsheetNew {} with actionsRun := [buildAction] } buildAction =
      ({ flowsheetNew {} with actionsRun := [buildAction] }, [], none) :=
  ⟨by decide, by decide,
   c6_run_action_already_run_noop 3 _ buildAction (by decide) (by decide)⟩

/-- Claim C7: `add_action_type(name, deps)` is a no-op when `name` is
already registered; otherwise it fails with a `KeyError` when some
dependency name is unknown (and no self-dependency precedes it, which
the hypothesis `name ∉ ds` guarantees), and with a `ValueError` when
`name` appears in its own dependency list (and every listed name is
known, so no `KeyError` preempts it). -/
theorem c7_add_action_type (st : FState) (name : String) :
    (∀ deps, (lookupA st.actions name).isSome = true →
       addActionType st name deps = (st, none)) ∧
    (∀ ds, (lookupA st.actions name).isSome = false → name ∉ ds →
       (∃ d ∈ ds, d ∉ knownAfterAdd st name) →
       ∃ m, (addActionType st name (some ds)).2 = some (.keyError m)) ∧
    (∀ ds, (lookupA st.actions name).isSome = false → name ∈ ds →
       (∀ d ∈ ds, d ∈ knownAfterAdd st name) →
       (addActionType st name (some ds)).2 =
         some (.valueError "Action cannot be dependent on itself")) := by
  refine ⟨fun deps h => ?_, fun ds h hn hx => ?_, fun ds h hmem hall => ?_⟩
  · simp [addActionType, h]
  · obtain ⟨m, hm⟩ := checkDeps_keyError (knownAfterAdd st name) name ds hn hx
    exact ⟨m, by simp [addActionType, h, knownAfterAdd] at hm ⊢; simp [hm]⟩
  · have hck := checkDeps_selfDep (knownAfterAdd st name) name ds hmem hall
    simp [addActionType, h, knownAfterAdd] at hck ⊢
    simp [hck]

/-- Witness for C7: the three branches at concrete inputs (no-op on
the preregistered `build`; unknown dependency; self-dependency). -/
theorem c7_witness :
    addActionType (flowsheetNew {}) buildAction none = (flowsheetNew {}, none) ∧
    (∃ m, (addActionType (flowsheetNew {}) "y" (some ["unknown"])).2 =
       some (PyErr.keyError m)) ∧
    (addActionType (flowsheetNew {}) "x" (some ["x"])).2 =
      some (PyErr.valueError "Action cannot be dependent on itself") :=
  ⟨(c7_add_action_type (flowsheetNew {}) buildAction).1 none (by decide),
   (c7_add_action_type (flowsheetNew {}) "y").2.1 ["unknown"] (by decide)
     (by decide) ⟨"unknown", by decide, by decide⟩,
   (c7_add_action_type (flowsheetNew {}) "x").2.2 ["x"] (by decide)
     (by decide) (by decide)⟩

/-- Counterexample to claim C4: `add_action_type("x", deps=["x"])` on a
fresh flowsheet interface raises the self-dependency `ValueError`, yet
it is not side-effect free: the action `"x"` is left registered in the
action table (with no function). -/
theorem c4_counterexample :
    (addActionType (flowsheetNew {}) "x" (some ["x"])).2 =
      some (PyErr.valueError "Action cannot be dependent on itself") ∧
    lookupA (addActionType (flowsheetNew {}) "x" (some ["x"])).1.actions "x" =
      some none := by decide

/-- Claim C4 as amended: unknown-name errors in `set_action`,
`get_action` and `run_action` are fail-fast and side-effect free; a
failed `add_action_type` records no dependency list and changes no run
status but leaves the new name registered with no function; and
`run_action` on a function-less action raises `ValueError` only after
its not-yet-run dependencies were run (their functions invoked, their
statuses set). -/
theorem c4_amended (fuel : Nat) (st : FState) (name : String) :
    ((lookupA st.actions name).isNone = true →
       (∀ func, setAction st name func =
          (st, some (PyErr.keyError ("Unknown action. name=" ++ name)))) ∧
       getAction st name =
         .error (PyErr.keyError ("Unknown action. name=" ++ name)) ∧
       runAction (fuel + 1) st name =
         (st, [], some (PyErr.keyError ("Unknown action. name=" ++ name)))) ∧
    (∀ ds e, (lookupA st.actions name).isSome = false →
       checkDeps (knownAfterAdd st name) name ds = some e →
       addActionType st name (some ds) =
         ({ st with actions := st.actions ++ [(name, none)] }, some e)) ∧
    (∀ st1 tr1, lookupA st.actions name = some none →
       name ∉ st.actionsRun →
       runDeps fuel st name = (st1, tr1, none) →
       runAction (fuel + 1) st name =
         (st1, tr1, some (PyErr.valueError ("Undefined action. name=" ++ name)))) := by
  refine ⟨fun h => ?_, fun ds e h hck => ?_, fun st1 tr1 hlk hrun hdeps => ?_⟩
  · have hnone : lookupA st.actions name = none := Option.isNone_iff_eq_none.mp h
    have hchk : checkAction st name = some (.keyError ("Unknown action. name=" ++ name)) := by
      simp [checkAction, hnone]
    exact ⟨fun func => by simp [setAction, hchk],
           by simp [getAction, hchk],
           by simp [runAction, hchk]⟩
  · simp [addActionType, h, knownAfterAdd] at hck ⊢
    simp [hck]
  · have hchk : checkAction st name = none := by simp [checkAction, hlk]
    have hst1 : st1.actions = st.actions := by
      have := (runDeps_tables fuel st name).1
      rw [hdeps] at this
      exact this
    have hlk1 : lookupA st1.actions name = some none := by rw [hst1, hlk]
    simp [runAction, hchk, hrun, hdeps, hlk1]

/-- Witness for C4's amended claim at concrete inputs: an unknown
action name; an unknown dependency; and running `solve` with no
function after only `build` has a function. -/
theorem c4_amended_witness :
    runAction 3 (flowsheetNew {}) "zzz" =
      (flowsheetNew {}, [], some (PyErr.keyError "Unknown action. name=zzz")) ∧
    addActionType (flowsheetNew {}) "y" (some ["unknown"]) =
      ({ flowsheetNew {} with
          actions := (flowsheetNew {}).actions ++ [("y", none)] },
        some (PyErr.keyError "Dependent action not found. name=unknown")) ∧
    runAction 6 (setAction (flowsheetNew {}) buildAction "fb").1 solveAction =
      ((runDeps 5 (setAction (flowsheetNew {}) buildAction "fb").1 solveAction).1,
       (runDeps 5 (setAction (flowsheetNew {}) buildAction "fb").1 solveAction).2.1,
       some (PyErr.valueError "Undefined action. name=solve")) :=
  ⟨((c4_amended 2 (flowsheetNew {}) "zzz").1 (by decide)).2.2,
   (c4_amended 0 (flowsheetNew {}) "y").2.1 ["unknown"]
     (PyErr.keyError "Dependent action not found. name=unknown")
     (by decide) (by decide),
   (c4_amended 5 (setAction (flowsheetNew {}) buildAction "fb").1 solveAction).2.2
     _ _ (by decide) (by decide) (by rfl)⟩

/-! ## Export: `get_exported_variables`, `_variable_value`,
`_get_block_map`, `as_dict` -/

/-- `_variable_value(v)`: an indexed variable exports as the list of
`{value, index}` pairs over its index set, a simple one as the bare
value. -/
def variableValue (v : PVar) : DocValue :=
  match v.val with
  | .scalar x => .scalar x
  | .indexed es => .indexed es

/-- One iteration of the `get_exported_variables` loop, for the
declared name `n` resolved to the variable `v`.  The loop builds
`c = {name, value}` and then tests `DISP_KEY not in c` / `DESC_KEY not
in c`, which both always hold, so the declared per-variable overrides
are ignored: display name is always `v.local_name` (the attribute
name) and description `v.doc or f"{display} variable"`; `units` is
emitted only when the variable has units. -/
def exportOneVar (n : String) (v : PVar) : DocVar :=
  { name := n
  , value := some (variableValue v)
  , display_name := some n
  , description := some (pyStrOr v.docstr (n ++ " variable"))
  , units := v.units }

/-- `get_exported_variables()`: for each declared variable,
`getattr(self._block, name)` (an `AttributeError` when absent), then
the record above.  A declared name resolving to a non-`Var` attribute
is outside the modelled Pyomo surface (interfaces built through
`export_variables` can never contain one) and is mapped to a
`TypeError`. -/
def exportVarsLoop (b : PBlock) :
    List VarConfEntry → Except PyErr (List DocVar)
  | [] => .ok []
  | item :: rest =>
    match b.getattr item.name with
    | none => .error .attributeError
    | some (.var v) =>
      match exportVarsLoop b rest with
      | .error e => .error e
      | .ok ds => .ok (exportOneVar item.name v :: ds)
    | some _ => .error (.typeError "not a Var")

def getExportedVariables (cfg : UIConfig) (b : PBlock) :
    Except PyErr (List DocVar) :=
  exportVarsLoop b cfg.vars

/-- The `new_data` node of `_add_to_mapping`: leaf name, the three
defaulted config strings, the exported variables, empty child list. -/
def newData (leaf : String) (cfg : UIConfig) (vs : List DocVar) : DocBlock :=
  .mk leaf (some cfg.display_name) (some cfg.description)
    (some cfg.category) (some vs) []

/-- The final leaf insertion of `_add_to_mapping`: a `ValueError` when
a node of that name is already present, else append at the end. -/
def insertLeafList (bs : List DocBlock) (leaf : String) (nd : DocBlock) :
    Except PyErr (List DocBlock) :=
  if bs.any (fun sb => sb.name == leaf) then
    .error (.valueError ("Add mapping key failed: Already present. key=" ++ leaf))
  else .ok (bs ++ [nd])

/-- The descent loop of `_add_to_mapping` below the root mapping: walk
`nodes`, at each step scanning the current `blocks` list for the named
child and synthesizing a bare `{name, blocks: []}` node (appended at
the end) when absent, then insert `nd` at the leaf. -/
def descendInsert : List DocBlock → List String → String → DocBlock →
    Except PyErr (List DocBlock)
  | bs, [], leaf, nd => insertLeafList bs leaf nd
  | [], k :: rest, leaf, nd =>
    match descendInsert [] rest leaf nd with
    | .error e => .error e
    | .ok inner => .ok [DocBlock.mk k none none none none inner]
  | b :: tl, k :: rest, leaf, nd =>
    if b.name == k then
      match descendInsert b.blocks rest leaf nd with
      | .error e => .error e
      | .ok inner => .ok (b.withBlocks inner :: tl)
    else
      match descendInsert tl (k :: rest) leaf nd with
      | .error e => .error e
      | .ok tl' => .ok (b :: tl')
termination_by bs nodes leaf nd => (nodes.length, bs.length)

/-- The root mapping being built by `_get_block_map`: a dict whose only
possible key is `"blocks"` (initially absent). -/
structure Mapping where
  blocks : Option (List DocBlock)

/-- `_add_to_mapping(m, key, ui)` with `key = nodes ++ [leaf]` and the
`new_data` node already built: at the root dict a missing `"blocks"`
key is a `KeyError` during descent but is simply created on a direct
leaf insertion (with no duplicate check, matching the source's `else`
branch). -/
def addToMapping (m : Mapping) (nodes : List String) (leaf : String)
    (nd : DocBlock) : Except PyErr Mapping :=
  match nodes with
  | [] =>
    match m.blocks with
    | some bs =>
      match insertLeafList bs leaf nd with
      | .error e => .error e
      | .ok bs' => .ok ⟨some bs'⟩
    | none => .ok ⟨some [nd]⟩
  | k :: rest =>
    match m.blocks with
    | none => .error (.keyError "blocks")
    | some bs =>
      match descendInsert bs (k :: rest) leaf nd with
      | .error e => .error e
      | .ok bs' => .ok ⟨some bs'⟩

mutual

/-- Number of blocks in a tree (the number of stack pops its subtree
costs `_get_block_map`). -/
def PBlock.weight : PBlock → Nat
  | .mk _ _ _ subs _ _ => 1 + weightList subs

def weightList : List PBlock → Nat
  | [] => 0
  | b :: tl => b.weight + weightList tl

end

/-- Total weight of the blocks on a `_get_block_map` stack. -/
def stackWeight (l : List ((List String × String) × PBlock)) : Nat :=
  (l.map (fun e => e.2.weight)).sum

theorem stackWeight_append (l1 l2 : List ((List String × String) × PBlock)) :
    stackWeight (l1 ++ l2) = stackWeight l1 + stackWeight l2 := by
  simp [stackWeight]

theorem weightList_eq_sum (l : List PBlock) :
    weightList l = (l.map PBlock.weight).sum := by
  induction l with
  | nil => simp [weightList]
  | cons b tl ih => simp [weightList, ih]

theorem stackWeight_cons (e : (List String × String) × PBlock)
    (l : List ((List String × String) × PBlock)) :
    stackWeight (e :: l) = e.2.weight + stackWeight l := by
  simp [stackWeight]

theorem stackWeight_entries (key : List String) (subs : List PBlock) :
    stackWeight (subs.reverse.map (fun sb => ((key, sb.name), sb))) =
      weightList subs := by
  induction subs with
  | nil => simp [stackWeight, weightList]
  | cons b tl ih =>
    have hsplit : (b :: tl).reverse.map (fun sb => ((key, sb.name), sb)) =
        tl.reverse.map (fun sb => ((key, sb.name), sb)) ++ [((key, b.name), b)] := by
      simp
    rw [hsplit, stackWeight_append, ih, stackWeight_cons]
    simp only [weightList]
    simp [stackWeight]
    omega

theorem PBlock.weight_eq (b : PBlock) :
    b.weight = 1 + weightList b.subBlocks := by
  cases b with
  | mk n d v s a u => simp [PBlock.weight, PBlock.subBlocks]

/-- The `_get_block_map` stack loop.  A stack entry holds the key path
split as `(nodes, leaf)` (the source's `key[:-1]` and `key[-1]`) and
the block.  Popping an entry adds the block's node to the mapping when
it carries an interface, and pushes the children; the source appends
them in `component_map` order and pops from the end, so head-of-list
as stack top receives them reversed. -/
def getBlockMapAux : List ((List String × String) × PBlock) → Mapping →
    Except PyErr Mapping
  | [], m => .ok m
  | ((nodes, leaf), b) :: rest, m =>
    let step : Except PyErr Mapping :=
      match b.ui with
      | some cfg =>
        match getExportedVariables cfg b with
        | .error e => .error e
        | .ok vs => addToMapping m nodes leaf (newData leaf cfg vs)
      | none => .ok m
    match step with
    | .error e => .error e
    | .ok m' =>
      getBlockMapAux
        (b.subBlocks.reverse.map (fun sb => ((nodes ++ [leaf], sb.name), sb))
          ++ rest) m'
termination_by l m => stackWeight l
decreasing_by
  simp only [stackWeight_append, stackWeight_entries, stackWeight_cons,
    PBlock.weight_eq]
  omega

/-- `_get_block_map()`: start from the bound block with key
`[block.name]` and an empty dict. -/
def getBlockMap (b : PBlock) : Except PyErr Mapping :=
  getBlockMapAux [(([], b.name), b)] ⟨none⟩

/-- `as_dict()`: the block map, updated with the stored metadata, with
`name` set to `"__root__"`.  The metadata keys never include `"name"`
or `"blocks"` (`update` builds the map from exactly the other keys),
so carrying them as a separate field is faithful to the dict update.
An unbound interface fails (`self._block.name` on `None`). -/
def asDict (st : FState) : Except PyErr RootDoc :=
  match st.block with
  | none => .error .attributeError
  | some b =>
    match getBlockMap b with
    | .error e => .error e
    | .ok m => .ok ⟨"__root__", m.blocks, st.meta⟩

/-- `save(...)`: `json.dump(self.as_dict(), fp)`.  File handling and
JSON text are outside the model; the saved document is the value
`as_dict` produced (JSON round-trips our value types exactly). -/
def save (st : FState) : Except PyErr RootDoc :=
  asDict st

/-! ## Import: `_load_variables`, `_load`, `update`, diagnostics -/

/-- Update the stored value of the named variable, leaving units,
description etc. untouched (`set_value` / indexed assignment only
change the value). -/
def PBlock.setVarVal (b : PBlock) (n : String) (vv : VarVal) : PBlock :=
  b.withVars (b.vars.map (fun p => if p.1 == n then (p.1, { p.2 with val := vv }) else p))

/-- The `for item in data_val` loop of `_load_variables`:
`variable_obj[idx] = val` for each `{index, value}` pair, a `KeyError`
when the index tuple is not in the variable's index set (exact match
required). -/
def setIndexedItems (entries : List (VIndex × SVal)) :
    List (VIndex × SVal) → Except PyErr (List (VIndex × SVal))
  | [] => .ok entries
  | (idx, v) :: rest =>
    if entries.any (fun e => e.1 == idx) then
      setIndexedItems
        (entries.map (fun e => if e.1 == idx then (e.1, v) else e)) rest
    else .error (.keyError "index not in index set")

/-- Apply one document value to the variable named `n` of block `b`
(the value-setting part of one `_load_variables` iteration, knowing
`getattr` resolved to the variable `v`).  A scalar document value on
an indexed variable models Pyomo's `IndexedVar.set_value`, which sets
every member; an index/value list on a scalar variable is a
`KeyError` (no such index). -/
def applyDocValue (b : PBlock) (n : String) (v : PVar) :
    Option DocValue → Except PyErr PBlock
  | none => .ok b
  | some (.scalar sv) =>
    match v.val with
    | .scalar _ => .ok (b.setVarVal n (.scalar sv))
    | .indexed es =>
      .ok (b.setVarVal n (.indexed (es.map (fun e => (e.1, sv)))))
  | some (.indexed items) =>
    match v.val with
    | .scalar _ => .error (.keyError "index not in index set")
    | .indexed es =>
      match setIndexedItems es items with
      | .error e => .error e
      | .ok es' => .ok (b.setVarVal n (.indexed es'))

/-- The main loop of `_load_variables`, threading the block, the
`missing` list and the `extra` set (modelled as a list in declaration
order, which is all the claims observe of it).  For each document
variable: `getattr(ui.block, name)` — an `AttributeError` when the
block has no such attribute; when the attribute is the Python value
`None` the entry is appended to `missing`; otherwise the value is
applied and the name removed from `extra` — `set.remove` raising a
`KeyError` when the name is not a declared variable of the interface.
A non-`Var`, non-`None` attribute (`set_value` on a sub-block) is
outside the modelled Pyomo surface and maps to a `TypeError`. -/
def loadVarsLoop (b : PBlock) (missing : List MissingItem)
    (extra : List String) :
    List DocVar → Except PyErr (PBlock × List MissingItem × List String)
  | [] => .ok (b, missing, extra)
  | dv :: rest =>
    match b.getattr dv.name with
    | none => .error .attributeError
    | some .noneVal => loadVarsLoop b (missing ++ [.entry dv]) extra rest
    | some (.blk _) => .error (.typeError "set_value on a Block")
    | some (.var v) =>
      match applyDocValue b dv.name v dv.value with
      | .error e => .error e
      | .ok b' =>
        if dv.name ∈ extra then
          loadVarsLoop b' missing (extra.erase dv.name) rest
        else .error (.keyError dv.name)

/-- `_load_variables(variables, ui)`: `missing` starts empty, `extra`
starts as the set of the interface's declared variable names. -/
def loadVariables (dvs : List DocVar) (cfg : UIConfig) (b : PBlock) :
    Except PyErr (PBlock × List MissingItem × List String) :=
  loadVarsLoop b [] (cfg.vars.map (·.name)) dvs

/-- The fully-qualified key of the current block in `_load`:
`cur_block.name` at the root, else `f"{parent_key}.{cur_block.name}"`. -/
def blockKey (parentKey : Option String) (cur : PBlock) : String :=
  match parentKey with
  | none => cur.name
  | some p => p ++ "." ++ cur.name

/-- Replace the named child block (the in-place mutation of the child
seen through the parent's attribute). -/
def replaceSub : List PBlock → String → PBlock → List PBlock
  | [], _, _ => []
  | sb :: tl, n, c => if sb.name == n then c :: tl else sb :: replaceSub tl n c

def PBlock.setSub (b : PBlock) (n : String) (c : PBlock) : PBlock :=
  b.withSubs (replaceSub b.subBlocks n c)

mutual

/-- `_load(block_data, cur_block, parent_key, var_diff)`.  When the
block has an interface and the document node has a `variables` key,
`_load_variables` runs and any non-empty `missing`/`extra` result is
recorded under the block's key; with an interface but no `variables`
key all declared names are recorded as `extra`; with no interface any
document variables are recorded (by name) as `missing`.  Then recurse
into each document child, located by `getattr` on the live block (an
`AttributeError` propagates when absent); document nodes always carry
a `blocks` key (the schema requires it), so the source's
`BLKS_KEY in block_data` test always passes here. -/
def loadB : DocBlock → PBlock → Option String → VarDiff →
    Except PyErr (PBlock × VarDiff)
  | .mk _ _ _ _ dvs bs, cur, parentKey, diff =>
    let curKey := blockKey parentKey cur
    let step : Except PyErr (PBlock × VarDiff) :=
      match cur.ui with
      | some cfg =>
        match dvs with
        | some dvl =>
          match loadVariables dvl cfg cur with
          | .error e => .error e
          | .ok (cur', miss, extra) =>
            let diff1 :=
              if miss.isEmpty then diff
              else { diff with missing := assocSet diff.missing curKey miss }
            let diff2 :=
              if extra.isEmpty then diff1
              else { diff1 with extra := assocSet diff1.extra curKey extra }
            .ok (cur', diff2)
        | none =>
          if cfg.vars.isEmpty then .ok (cur, diff)
          else
            .ok (cur, { diff with
              extra := assocSet diff.extra curKey (cfg.vars.map (·.name)) })
      | none =>
        match dvs with
        | none => .ok (cur, diff)
        | some dvl =>
          if dvl.isEmpty then .ok (cur, diff)
          else
            .ok (cur, { diff with
              missing := assocSet diff.missing curKey
                (dvl.map (fun v => MissingItem.named v.name)) })
    match step with
    | .error e => .error e
    | .ok (cur1, diff1) => loadChildren bs cur1 curKey diff1

def loadChildren : List DocBlock → PBlock → String → VarDiff →
    Except PyErr (PBlock × VarDiff)
  | [], cur, _, diff => .ok (cur, diff)
  | sb :: rest, cur, curKey, diff =>
    match cur.lookupSub sb.name with
    | none => .error .attributeError
    | some child =>
      match loadB sb child (some curKey) diff with
      | .error e => .error e
      | .ok (child', diff') =>
        loadChildren rest (cur.setSub sb.name child') curKey diff'

end

/-- Modelled from the spec: `get_schema().validate(data)` is provided
by `api_util.Schema`, which is not among the sources.  Per the spec's
schema (§6), every block requires `name` and `blocks` and the other
fields are optional with the types our document model already enforces,
so a typed `RootDoc` value can only be invalid by lacking the top-level
`blocks` key; `validate` returns a diagnostic then and `None`
otherwise. -/
def schemaValidate (d : RootDoc) : Option String :=
  match d.blocks with
  | none => some "required property blocks is missing"
  | some _ => none

/-- `update(data)`: schema validation (`ValueError` on failure), the
exactly-one-top-level-block check (`ValueError`), then `_load` from
the root document block into the bound block with a fresh
missing/extra record, then the metadata keys, then clearing the
`solve` action's run status if it was set.  On an error from `_load`
the Python object keeps the partial mutation; the model returns only
the exception. -/
def update (st : FState) (data : RootDoc) : Except PyErr FState :=
  match schemaValidate data with
  | some msg =>
    .error (.valueError ("Input data failed schema validation: " ++ msg))
  | none =>
    match data.blocks with
    | none => .error (.keyError "blocks")
    | some tops =>
      match tops with
      | [top] =>
        match st.block with
        | none => .error .attributeError
        | some b =>
          match loadB top b none ⟨[], []⟩ with
          | .error e => .error e
          | .ok (b', diff') =>
            .ok { st with
              block := some b'
              varDiff := some diff'
              meta := data.meta
              actionsRun :=
                if solveAction ∈ st.actionsRun then
                  st.actionsRun.erase solveAction
                else st.actionsRun }
      | _ =>
        .error (.valueError "There should be one top-level flowsheet block")

/-- `load(file, fs)` with the interface already in hand: read the
document (file access and JSON parsing are outside the model) and
`update` it into the flowsheet. -/
def loadDoc (data : RootDoc) (st : FState) : Except PyErr FState :=
  update st data

/-- `get_var_missing()`: `self._var_diff["missing"]`, a `KeyError`
before any `load`/`update` stored a diff. -/
def getVarMissing (st : FState) :
    Except PyErr (List (String × List MissingItem)) :=
  match st.varDiff with
  | some d => .ok d.missing
  | none =>
    .error (.keyError "get_var_missing() has no meaning before load() is called")

/-- `get_var_extra()`: `self._var_diff["extra"]`, a `KeyError` before
any `load`/`update` stored a diff. -/
def getVarExtra (st : FState) :
    Except PyErr (List (String × List String)) :=
  match st.varDiff with
  | some d => .ok d.extra
  | none =>
    .error (.keyError "get_var_extra() has no meaning before load() is called")

/-! ## `export_variables` and `__eq__` -/

/-- `_validate_export_var(b, n)`: `getattr` failure (`AttributeError`)
is re-raised as a `TypeError`; an attribute that is not a `Var`
(including one bound to `None`) is a `TypeError`. -/
def validateExportVar (b : PBlock) (n : String) : Option PyErr :=
  match b.getattr n with
  | none =>
    some (.typeError ("Attempt to export non-existing variable. attr=" ++ n))
  | some (.var _) => none
  | some _ =>
    some (.typeError ("Attempt to export non-variable. attr=" ++ n))

/-- The `variables` argument of `export_variables`: absent, a sequence
of names, or a mapping from name to per-variable overrides (the
`hasattr(variables, "items")` branch). -/
structure VarOverride where
  display_name : Option String := none
  description : Option String := none
  units : Option String := none

inductive VariablesArg where
  | noneArg
  | seq (names : List String)
  | mapping (entries : List (String × VarOverride))

/-- The sequence branch of the `export_variables` loop: validate each
name (first failure raises), entry is `{name: var_name}`. -/
def buildEntriesSeq (b : PBlock) :
    List String → Except PyErr (List VarConfEntry)
  | [] => .ok []
  | n :: rest =>
    match validateExportVar b n with
    | some e => .error e
    | none =>
      match buildEntriesSeq b rest with
      | .error e => .error e
      | .ok es => .ok (⟨n, none, none, none⟩ :: es)

/-- The mapping branch: entry is `{name: key}` updated with the
per-variable override dict. -/
def buildEntriesMap (b : PBlock) :
    List (String × VarOverride) → Except PyErr (List VarConfEntry)
  | [] => .ok []
  | (k, o) :: rest =>
    match validateExportVar b k with
    | some e => .error e
    | none =>
      match buildEntriesMap b rest with
      | .error e => .error e
      | .ok es => .ok (⟨k, o.display_name, o.description, o.units⟩ :: es)

/-- `export_variables(block, variables, name, desc, category)`: build
the config (validating every named variable at declaration time), then
`BlockInterface(block, config)`, whose `_init` defaults the metadata
and attaches the interface to the block. -/
def exportVariables (b : PBlock) (vsArg : VariablesArg)
    (name desc categ : Option String) :
    Except PyErr (UIConfig × PBlock) :=
  let entries : Except PyErr (List VarConfEntry) :=
    match vsArg with
    | .noneArg => .ok []
    | .seq ns => buildEntriesSeq b ns
    | .mapping m => buildEntriesMap b m
  match entries with
  | .error e => .error e
  | .ok es =>
    let cfg := initConfig ⟨name, desc, categ, es⟩ b
    .ok (cfg, b.withUI (some cfg))

mutual

/-- Python `==` on two document block nodes (dict/list equality). -/
def DocBlock.beq : DocBlock → DocBlock → Bool
  | .mk n dn ds dc dv bs, .mk n' dn' ds' dc' dv' bs' =>
    n == n' && dn == dn' && ds == ds' && dc == dc' && dv == dv' &&
      DocBlock.beqList bs bs'

def DocBlock.beqList : List DocBlock → List DocBlock → Bool
  | [], [] => true
  | b :: tl, b' :: tl' => DocBlock.beq b b' && DocBlock.beqList tl tl'
  | _, _ => false

end

/-- Python `==` on two root documents (the `meta` comparison is
modelled entry-wise; `update` preserves entry order so the claims
never distinguish this from Python's order-insensitive dict `==`). -/
def rootDocBeq (a b : RootDoc) : Bool :=
  a.name == b.name &&
    (match a.blocks, b.blocks with
     | none, none => true
     | some x, some y => DocBlock.beqList x y
     | _, _ => false) &&
    a.meta == b.meta

/-- `__eq__(other)`: when `other` has a callable `as_dict`, the result
of comparing `self.as_dict()` with `other.as_dict()` (serializing both
operands); otherwise `False`.  `other` is modelled by what its
`as_dict` returns — `none` when it has no such attribute. -/
def fsEq (st : FState) (other : Option RootDoc) : Except PyErr Bool :=
  match other with
  | some od =>
    match asDict st with
    | .error e => .error e
    | .ok d => .ok (rootDocBeq d od)
  | none => .ok false

/-! ## Shape of a successful `update` -/

/-- What a successful `update` does to the interface state: action and
dependency tables untouched, `solve` (alone) dropped from the run set
when present, metadata replaced, and the bound block and variable diff
replaced by the `_load` results of the unique top-level document
block. -/
theorem update_ok_shape (st : FState) (data : RootDoc) (st' : FState)
    (h : update st data = .ok st') :
    st'.actionsRun = (if solveAction ∈ st.actionsRun
      then st.actionsRun.erase solveAction else st.actionsRun) ∧
    st'.actions = st.actions ∧
    st'.actionsDeps = st.actionsDeps ∧
    st'.meta = data.meta ∧
    (∃ top b r, data.blocks = some [top] ∧ st.block = some b ∧
      loadB top b none ⟨[], []⟩ = .ok r ∧
      st'.block = some r.1 ∧ st'.varDiff = some r.2) := by
  unfold update at h
  cases hv : schemaValidate data with
  | some m => rw [hv] at h; simp at h
  | none =>
    rw [hv] at h
    dsimp only at h
    cases hb : data.blocks with
    | none => rw [hb] at h; simp at h
    | some tops =>
      rw [hb] at h
      dsimp only at h
      cases tops with
      | nil => simp at h
      | cons t ts =>
        cases ts with
        | cons t2 ts2 => simp at h
        | nil =>
          dsimp only at h
          cases hblk : st.block with
          | none => rw [hblk] at h; simp at h
          | some b =>
            rw [hblk] at h
            dsimp only at h
            cases hload : loadB t b none ⟨[], []⟩ with
            | error e => rw [hload] at h; simp at h
            | ok r =>
              obtain ⟨b2, d2⟩ := r
              rw [hload] at h
              dsimp only at h
              simp only [Except.ok.injEq] at h
              subst h
              exact ⟨rfl, rfl, rfl, rfl, t, b, (b2, d2), rfl, rfl, hload,
                rfl, rfl⟩

/-! ## Claim C5 -/

/-- Claim C5: whenever both `build` and `solve` are marked run, a
successful `update` removes exactly `solve` from the run set: `build`
stays run, and the status of every action other than `solve` is
unchanged. -/
theorem c5_update_clears_only_solve (st : FState) (data : RootDoc)
    (st' : FState) (hb : buildAction ∈ st.actionsRun)
    (hs : solveAction ∈ st.actionsRun)
    (hupd : update st data = .ok st') :
    st'.actionsRun = st.actionsRun.erase solveAction ∧
    buildAction ∈ st'.actionsRun ∧
    (∀ a, a ≠ solveAction → (a ∈ st'.actionsRun ↔ a ∈ st.actionsRun)) := by
  obtain ⟨hrun, -, -, -, -⟩ := update_ok_shape st data st' hupd
  rw [if_pos hs] at hrun
  refine ⟨hrun, ?_, ?_⟩
  · rw [hrun]
    exact (List.mem_erase_of_ne (by decide)).mpr hb
  · intro a ha
    rw [hrun]
    exact List.mem_erase_of_ne ha

/-! ## Concrete demonstration states (used by several witnesses) -/

def demoBlock : PBlock := .mk "fs" none [] [] [] none

def demoOpts : RawOptions := ⟨none, none, none, []⟩

def demoFs : FState := setBlock (flowsheetNew demoOpts) demoBlock

/-- `build → solve → get-results` registered with functions. -/
def demoFsReady : FState :=
  let s1 := (addActionType demoFs resultsAction (some [solveAction])).1
  let s2 := (setAction s1 buildAction "build_fn").1
  let s3 := (setAction s2 solveAction "solve_fn").1
  (setAction s3 resultsAction "results_fn").1

/-- After `run_action("get-results")`: all three actions ran. -/
def demoFsRun : FState := (runAction 9 demoFsReady resultsAction).1

def demoDoc : RootDoc :=
  ⟨"__root__", some [.mk "fs" none none none none []], []⟩

def demoUpdated : FState :=
  match update demoFsRun demoDoc with
  | .ok s => s
  | .error _ => demoFsRun

/-- Witness for C5: in the concrete run state all three actions are
marked run; updating with a fresh document drops exactly `solve`. -/
theorem c5_witness :
    buildAction ∈ demoFsRun.actionsRun ∧
    solveAction ∈ demoFsRun.actionsRun ∧
    update demoFsRun demoDoc = .ok demoUpdated ∧
    demoUpdated.actionsRun = demoFsRun.actionsRun.erase solveAction ∧
    buildAction ∈ demoUpdated.actionsRun := by
  have h3 : update demoFsRun demoDoc = .ok demoUpdated := rfl
  have hc5 := c5_update_clears_only_solve demoFsRun demoDoc demoUpdated
    (by decide) (by decide) h3
  exact ⟨by decide, by decide, h3, hc5.1, hc5.2.1⟩

/-! ## Claim C9 -/

mutual

theorem runAction_varDiff (fuel : Nat) (st : FState) (name : String) :
    (runAction fuel st name).1.varDiff = st.varDiff := by
  match fuel with
  | 0 => simp [runAction]
  | fuel + 1 =>
    simp only [runAction]
    cases hchk : checkAction st name with
    | some e => simp
    | none =>
      simp only
      by_cases hrun : name ∈ st.actionsRun
      · simp [hrun]
      · simp only [hrun, if_false]
        have hd := runDeps_varDiff fuel st name
        rcases hds : runDeps fuel st name with ⟨st1, tr1, e1⟩
        simp only [hds] at hd
        cases e1 with
        | some e => simpa using hd
        | none =>
          simp only
          cases hlk : lookupA st1.actions name with
          | none => simpa using hd
          | some fo =>
            cases fo with
            | none => simpa using hd
            | some f => simpa [actionSetWasRun] using hd

theorem runDeps_varDiff (fuel : Nat) (st : FState) (name : String) :
    (runDeps fuel st name).1.varDiff = st.varDiff := by
  match fuel with
  | 0 => simp [runDeps]
  | fuel + 1 =>
    simp only [runDeps]
    cases lookupA st.actionsDeps name with
    | none => simp
    | some ds => exact runDepsList_varDiff fuel st ds

theorem runDepsList_varDiff (fuel : Nat) (st : FState) (ds : List String) :
    (runDepsList fuel st ds).1.varDiff = st.varDiff := by
  match fuel, ds with
  | 0, _ => simp [runDepsList]
  | _ + 1, [] => simp [runDepsList]
  | fuel + 1, d :: rest =>
    simp only [runDepsList]
    by_cases hrun : d ∈ st.actionsRun
    · simp only [hrun, if_true]
      exact runDepsList_varDiff fuel st rest
    · simp only [hrun, if_false]
      have ha := runAction_varDiff fuel st d
      rcases hra : runAction fuel st d with ⟨st1, tr1, e1⟩
      simp only [hra] at ha
      cases e1 with
      | some e => simpa using ha
      | none =>
        have hl := runDepsList_varDiff fuel st1 rest
        rcases hrl : runDepsList fuel st1 rest with ⟨st2, tr2, e2⟩
        simp only [hrl] at hl
        simp only [hrl]
        exact hl.trans ha

end

/-- Claim C9: the variable diff is absent on a freshly constructed
interface and untouched by everything except `update`; while absent
both diagnostics fail with the `KeyError` of the source and after a
successful `update` they return exactly the missing/extra maps that
`_load` recorded for it. -/
theorem c9_diagnostics_contract :
    (∀ opts, (flowsheetNew opts).varDiff = none) ∧
    (∀ st b, (setBlock st b).varDiff = st.varDiff) ∧
    (∀ st name deps, (addActionType st name deps).1.varDiff = st.varDiff) ∧
    (∀ st name f, (setAction st name f).1.varDiff = st.varDiff) ∧
    (∀ fuel st name, (runAction fuel st name).1.varDiff = st.varDiff) ∧
    (∀ st : FState, st.varDiff = none →
       getVarMissing st = .error (.keyError
         "get_var_missing() has no meaning before load() is called") ∧
       getVarExtra st = .error (.keyError
         "get_var_extra() has no meaning before load() is called")) ∧
    (∀ st data st', update st data = .ok st' →
       ∃ d, st'.varDiff = some d ∧
         getVarMissing st' = .ok d.missing ∧
         getVarExtra st' = .ok d.extra ∧
         ∀ top b r, data.blocks = some [top] → st.block = some b →
           loadB top b none ⟨[], []⟩ = .ok r → d = r.2) := by
  refine ⟨fun opts => rfl, fun st b => rfl, ?_, ?_, runAction_varDiff,
    ?_, ?_⟩
  · intro st name deps
    unfold addActionType
    split
    · rfl
    · cases deps with
      | none => rfl
      | some ds =>
        dsimp only
        split <;> rfl
  · intro st name f
    unfold setAction
    cases checkAction st name with
    | some e => rfl
    | none => rfl
  · intro st h
    simp [getVarMissing, getVarExtra, h]
  · intro st data st' hupd
    obtain ⟨-, -, -, -, top, b, r, hb, hblk, hload, -, hvd⟩ :=
      update_ok_shape st data st' hupd
    refine ⟨r.2, hvd, by simp [getVarMissing, hvd], by simp [getVarExtra, hvd], ?_⟩
    intro top' b' r' hb' hblk' hload'
    rw [hb] at hb'
    rw [hblk] at hblk'
    obtain rfl : top = top' := by simpa using hb'
    obtain rfl : b = b' := by simpa using hblk'
    rw [hload] at hload'
    simpa using congrArg Prod.snd (Except.ok.inj hload')

def demoFsLoaded : FState :=
  match update demoFs demoDoc with
  | .ok s => s
  | .error _ => demoFs

/-- Witness for C9: the fresh interface's diagnostics fail with the
source's `KeyError`s; after a concrete successful `update` both maps
are retrievable (and empty for the trivial document). -/
theorem c9_witness :
    getVarMissing (flowsheetNew demoOpts) = .error (.keyError
      "get_var_missing() has no meaning before load() is called") ∧
    getVarExtra (flowsheetNew demoOpts) = .error (.keyError
      "get_var_extra() has no meaning before load() is called") ∧
    update demoFs demoDoc = .ok demoFsLoaded ∧
    getVarMissing demoFsLoaded = .ok [] ∧
    getVarExtra demoFsLoaded = .ok [] := by
  have hupd : update demoFs demoDoc = .ok demoFsLoaded := rfl
  have h6 := c9_diagnostics_contract.2.2.2.2.2.1 (flowsheetNew demoOpts) rfl
  obtain ⟨d, hd, hm, he, huniq⟩ :=
    c9_diagnostics_contract.2.2.2.2.2.2 demoFs demoDoc demoFsLoaded hupd
  have hdval : d = (⟨[], []⟩ : VarDiff) := by
    have : demoFsLoaded.varDiff = some ⟨[], []⟩ := rfl
    rw [this] at hd
    exact (Option.some.inj hd).symm
  subst hdval
  exact ⟨h6.1, h6.2, hupd, hm, he⟩

/-! ## Claim C2 -/

/-- A block with variables `v` (declared for export) and `x` (present
but not declared). -/
def c2Block : PBlock :=
  .mk "fs" none
    [("v", ⟨.scalar (.num 0), none, none⟩), ("x", ⟨.scalar (.num 1), none, none⟩)]
    [] [] none

def c2Fs : FState :=
  setBlock (flowsheetNew ⟨none, none, none, [⟨"v", none, none, none⟩]⟩) c2Block

/-- A schema-valid document whose root block lists a variable `foo`
that neither the interface declares nor the block has. -/
def c2DocFoo : RootDoc :=
  ⟨"__root__",
   some [.mk "fs" none none none (some [⟨"foo", none, none, none, none⟩]) []],
   []⟩

/-- A schema-valid document listing `x`: present on the block but not
among the interface's declared variables. -/
def c2DocX : RootDoc :=
  ⟨"__root__",
   some [.mk "fs" none none none
     (some [⟨"x", some (.scalar (.num 5)), none, none, none⟩]) []],
   []⟩

/-- A schema-valid document with an empty `variables` list (so every
declared interface variable is "extra"). -/
def c2DocEmptyVars : RootDoc :=
  ⟨"__root__", some [.mk "fs" none none none (some []) []], []⟩

def c2Loaded : FState :=
  match update c2Fs c2DocEmptyVars with
  | .ok s => s
  | .error _ => c2Fs

/-- Claim C2, evaluated at its failing inputs: a document variable
that is not among the interface's declared variables makes `update`
raise instead of recording it under "missing" — an `AttributeError`
from `getattr(ui.block, name)` when the block lacks the attribute, and
a `KeyError` from `result["extra"].remove(name)` when the block has it
but the interface does not declare it.  The "extra" half of the claim
does hold (third and fourth conjuncts): a declared variable absent
from the document is recorded under the block's path and retrievable
afterwards. -/
theorem c2_code_bug :
    update c2Fs c2DocFoo = .error PyErr.attributeError ∧
    update c2Fs c2DocX = .error (PyErr.keyError "x") ∧
    update c2Fs c2DocEmptyVars = .ok c2Loaded ∧
    getVarExtra c2Loaded = .ok [("fs", ["v"])] ∧
    getVarMissing c2Loaded = .ok [] :=
  ⟨rfl, rfl, rfl, rfl, rfl⟩

/-! ## Claim C3 -/

/-- Counterexample to claim C3: in the concrete `build → solve →
get-results` workflow with all functions registered, after
`run_action("get-results")` has marked all three actions run, a
successful `update` leaves `get-results` marked run (only `solve` is
cleared), so re-running `"get-results"` is skipped as a duplicate: it
returns `None` having invoked no function at all, instead of
re-invoking solve and results. -/
theorem c3_counterexample :
    buildAction ∈ demoFsRun.actionsRun ∧
    solveAction ∈ demoFsRun.actionsRun ∧
    resultsAction ∈ demoFsRun.actionsRun ∧
    update demoFsRun demoDoc = .ok demoUpdated ∧
    runAction 9 demoUpdated resultsAction = (demoUpdated, [], none) :=
  ⟨by decide, by decide, by decide, rfl, rfl⟩

/-- Claim C3 as amended: with `results` marked run, a successful
`update` keeps it marked run (clearing `solve` does not cascade to its
dependents), so `run_action("results")` afterwards returns `None`
immediately, invoking neither the solve nor the results function; only
an action whose own status was cleared (such as `solve` itself, when
its run status is dropped by the update) would re-run. -/
theorem c3_amended (fuel : Nat) (st : FState) (data : RootDoc)
    (st' : FState) (hnd : st.actionsRun.Nodup)
    (hreg : (lookupA st.actions resultsAction).isSome = true)
    (hres : resultsAction ∈ st.actionsRun)
    (hupd : update st data = .ok st') :
    resultsAction ∈ st'.actionsRun ∧
    runAction (fuel + 1) st' resultsAction = (st', [], none) ∧
    (solveAction ∈ st.actionsRun → solveAction ∉ st'.actionsRun) := by
  obtain ⟨hrun, hact, -, -, -⟩ := update_ok_shape st data st' hupd
  have hres' : resultsAction ∈ st'.actionsRun := by
    rw [hrun]
    by_cases hs : solveAction ∈ st.actionsRun
    · rw [if_pos hs]
      exact (List.mem_erase_of_ne (by decide)).mpr hres
    · rw [if_neg hs]
      exact hres
  refine ⟨hres', ?_, ?_⟩
  · have hchk : checkAction st' resultsAction = none := by
      rcases h : lookupA st'.actions resultsAction with _ | v
      · rw [← hact, h] at hreg
        simp at hreg
      · simp [checkAction, h]
    simp [runAction, hchk, hres']
  · intro hs
    rw [hrun, if_pos hs]
    intro hmem
    exact ((List.Nodup.mem_erase_iff hnd).mp hmem).1 rfl

/-- Witness for C3's amended claim at the concrete workflow state. -/
theorem c3_amended_witness :
    resultsAction ∈ demoUpdated.actionsRun ∧
    runAction 7 demoUpdated resultsAction = (demoUpdated, [], none) ∧
    solveAction ∉ demoUpdated.actionsRun := by
  have h := c3_amended 6 demoFsRun demoDoc demoUpdated (by decide)
    (by decide) (by decide) rfl
  exact ⟨h.1, h.2.1, h.2.2 (by decide)⟩

/-! ## Claim C8 -/

theorem validateExportVar_typeError (b : PBlock) (n : String) (e : PyErr)
    (h : validateExportVar b n = some e) : ∃ m, e = .typeError m := by
  unfold validateExportVar at h
  rcases hg : b.getattr n with _ | a
  · rw [hg] at h
    exact ⟨_, (Option.some.inj h).symm⟩
  · cases a with
    | var v => rw [hg] at h; cases h
    | blk b2 => rw [hg] at h; exact ⟨_, (Option.some.inj h).symm⟩
    | noneVal => rw [hg] at h; exact ⟨_, (Option.some.inj h).symm⟩

theorem buildEntriesSeq_error (b : PBlock) (names : List String)
    (hx : ∃ n ∈ names, validateExportVar b n ≠ none) :
    ∃ m, buildEntriesSeq b names = .error (.typeError m) := by
  induction names with
  | nil => simp at hx
  | cons n rest ih =>
    rcases hv : validateExportVar b n with _ | e
    · rcases hx with ⟨n0, hn0, hbad⟩
      rcases List.mem_cons.mp hn0 with rfl | hmem
      · exact absurd hv hbad
      · obtain ⟨m, hm⟩ := ih ⟨n0, hmem, hbad⟩
        refine ⟨m, ?_⟩
        unfold buildEntriesSeq
        rw [hv, hm]
    · obtain ⟨m, rfl⟩ := validateExportVar_typeError b n e hv
      refine ⟨m, ?_⟩
      unfold buildEntriesSeq
      rw [hv]

theorem buildEntriesSeq_ok (b : PBlock) (names : List String)
    (es : List VarConfEntry) (h : buildEntriesSeq b names = .ok es) :
    es = names.map (fun n => ⟨n, none, none, none⟩) ∧
    ∀ n ∈ names, ∃ v, b.getattr n = some (.var v) := by
  induction names generalizing es with
  | nil =>
    refine ⟨?_, by simp⟩
    have : (Except.ok [] : Except PyErr (List VarConfEntry)) = .ok es := h
    simpa using (Except.ok.inj this).symm
  | cons n rest ih =>
    unfold buildEntriesSeq at h
    rcases hv : validateExportVar b n with _ | e
    · rw [hv] at h
      rcases hrest : buildEntriesSeq b rest with e2 | es2
      · rw [hrest] at h; cases h
      · rw [hrest] at h
        obtain ⟨hes2, hvars⟩ := ih es2 hrest
        have hes : es = ⟨n, none, none, none⟩ :: es2 := (Except.ok.inj h).symm
        have hvar : ∃ v, b.getattr n = some (.var v) := by
          unfold validateExportVar at hv
          rcases hg : b.getattr n with _ | a
          · rw [hg] at hv; cases hv
          · cases a with
            | var v => exact ⟨v, rfl⟩
            | blk b2 => rw [hg] at hv; cases hv
            | noneVal => rw [hg] at hv; cases hv
        refine ⟨by rw [hes, hes2]; rfl, ?_⟩
        intro n0 hn0
        rcases List.mem_cons.mp hn0 with rfl | hmem
        · exact hvar
        · exact hvars n0 hmem
    · rw [hv] at h; cases h

theorem getattr_withUI (b : PBlock) (u : Option UIConfig) (n : String) :
    (b.withUI u).getattr n = b.getattr n := by
  cases b; rfl

theorem exportVarsLoop_ok (b : PBlock) (es : List VarConfEntry)
    (h : ∀ item ∈ es, ∃ v, b.getattr item.name = some (.var v)) :
    ∃ vs, exportVarsLoop b es = .ok vs := by
  induction es with
  | nil => exact ⟨[], rfl⟩
  | cons item rest ih =>
    obtain ⟨v, hv⟩ := h item (List.mem_cons_self _ _)
    obtain ⟨vs, hvs⟩ := ih (fun i hi => h i (List.mem_cons_of_mem _ hi))
    refine ⟨exportOneVar item.name v :: vs, ?_⟩
    unfold exportVarsLoop
    rw [hv, hvs]

/-- Claim C8: naming a non-existent or non-`Var` attribute in
`export_variables(block, variables=[...])` fails with a `TypeError`
at declaration time; and on a successfully declared interface the
export of its variables (the part of `as_dict()` that reads them)
never raises — validation is not deferred to export time. -/
theorem c8_export_validates_at_declaration (b : PBlock)
    (names : List String) (nm ds ct : Option String) :
    (∀ n ∈ names, (∀ v, b.getattr n ≠ some (.var v)) →
       ∃ m, exportVariables b (.seq names) nm ds ct =
         .error (.typeError m)) ∧
    (∀ cfg b', exportVariables b (.seq names) nm ds ct = .ok (cfg, b') →
       ∃ vs, getExportedVariables cfg b' = .ok vs) := by
  constructor
  · intro n hn hbad
    have hval : validateExportVar b n ≠ none := by
      unfold validateExportVar
      rcases hg : b.getattr n with _ | a
      · simp
      · cases a with
        | var v => exact absurd hg (hbad v)
        | blk b2 => simp
        | noneVal => simp
    obtain ⟨m, hm⟩ := buildEntriesSeq_error b names ⟨n, hn, hval⟩
    refine ⟨m, ?_⟩
    unfold exportVariables
    dsimp only
    rw [hm]
  · intro cfg b' hok
    unfold exportVariables at hok
    dsimp only at hok
    rcases hes : buildEntriesSeq b names with e | es
    · rw [hes] at hok; cases hok
    · rw [hes] at hok
      dsimp only at hok
      have hp := Except.ok.inj hok
      rw [Prod.mk.injEq] at hp
      obtain ⟨hok1, hok2⟩ := hp
      obtain ⟨hesval, hvars⟩ := buildEntriesSeq_ok b names es hes
      have hcfgvars : cfg.vars = es := by rw [← hok1]; rfl
      refine exportVarsLoop_ok b' cfg.vars ?_
      intro item hitem
      rw [hcfgvars, hesval] at hitem
      obtain ⟨n0, hn0, hitem0⟩ := List.mem_map.mp hitem
      obtain ⟨v, hv⟩ := hvars n0 hn0
      refine ⟨v, ?_⟩
      rw [← hok2, getattr_withUI, ← hitem0, hv]

def c8Good : UIConfig × PBlock :=
  match exportVariables c2Block (.seq ["v"]) none none none with
  | .ok p => p
  | .error _ => (⟨"", "", "", []⟩, c2Block)

/-- Witness for C8: exporting the non-existent `nope` fails with a
`TypeError` at declaration time; exporting the existing variable `v`
succeeds and its export never raises. -/
theorem c8_witness :
    (∃ m, exportVariables c2Block (.seq ["nope"]) none none none =
       .error (PyErr.typeError m)) ∧
    exportVariables c2Block (.seq ["v"]) none none none = .ok c8Good ∧
    (∃ vs, getExportedVariables c8Good.1 c8Good.2 = .ok vs) := by
  have h := c8_export_validates_at_declaration c2Block ["nope"] none none none
  have h2 := c8_export_validates_at_declaration c2Block ["v"] none none none
  refine ⟨h.1 "nope" (by decide) ?_, rfl, h2.2 c8Good.1 c8Good.2 rfl⟩
  intro v hv
  rw [show c2Block.getattr "nope" = none from rfl] at hv
  cases hv

/-! ## Claim C10 -/

mutual

theorem DocBlock.beq_iff : ∀ a b : DocBlock, DocBlock.beq a b = true ↔ a = b
  | .mk n dn ds dc dv bs, .mk n' dn' ds' dc' dv' bs' => by
    simp only [DocBlock.beq, Bool.and_eq_true, beq_iff_eq, DocBlock.mk.injEq]
    constructor
    · rintro ⟨⟨⟨⟨⟨h1, h2⟩, h3⟩, h4⟩, h5⟩, h6⟩
      exact ⟨h1, h2, h3, h4, h5, (DocBlock.beqList_iff bs bs').mp h6⟩
    · rintro ⟨h1, h2, h3, h4, h5, h6⟩
      exact ⟨⟨⟨⟨⟨h1, h2⟩, h3⟩, h4⟩, h5⟩, (DocBlock.beqList_iff bs bs').mpr h6⟩

theorem DocBlock.beqList_iff :
    ∀ l1 l2 : List DocBlock, DocBlock.beqList l1 l2 = true ↔ l1 = l2
  | [], [] => by simp [DocBlock.beqList]
  | [], _ :: _ => by simp [DocBlock.beqList]
  | _ :: _, [] => by simp [DocBlock.beqList]
  | a :: atl, b :: btl => by
    simp only [DocBlock.beqList, Bool.and_eq_true, List.cons.injEq]
    constructor
    · rintro ⟨h1, h2⟩
      exact ⟨(DocBlock.beq_iff a b).mp h1, (DocBlock.beqList_iff atl btl).mp h2⟩
    · rintro ⟨h1, h2⟩
      exact ⟨(DocBlock.beq_iff a b).mpr h1, (DocBlock.beqList_iff atl btl).mpr h2⟩

end

theorem rootDocBeq_iff (a b : RootDoc) : rootDocBeq a b = true ↔ a = b := by
  obtain ⟨an, ab, am⟩ := a
  obtain ⟨bn, bb, bm⟩ := b
  simp only [rootDocBeq, Bool.and_eq_true, beq_iff_eq, RootDoc.mk.injEq]
  cases ab with
  | none =>
    cases bb with
    | none => simp
    | some y => simp
  | some x =>
    cases bb with
    | none => simp
    | some y => simp [DocBlock.beqList_iff x y, and_assoc]

/-- Claim C10: `__eq__` is decided purely by the serialized documents
— when `other` has a callable `as_dict`, the result is the comparison
of the two `as_dict()` values (and equality of the model documents is
exactly what the Boolean comparison tests); when it has none, the
result is `False`.  Object identity plays no role (any state whose
document equals the operand's compares equal; see the witness). -/
theorem c10_eq_by_document (st : FState) :
    (∀ od d, asDict st = .ok d → fsEq st (some od) = .ok (rootDocBeq d od)) ∧
    fsEq st none = .ok false ∧
    (∀ od d, asDict st = .ok d → (fsEq st (some od) = .ok true ↔ d = od)) := by
  refine ⟨fun od d h => by simp [fsEq, h], by simp [fsEq], fun od d h => ?_⟩
  simp only [fsEq, h, Except.ok.injEq]
  exact rootDocBeq_iff d od

/-- A state differing from `demoFs` in its run set and saved options
(a different object in every respect the serialization does not see). -/
def c10Other : FState :=
  { demoFs with
      actionsRun := [buildAction]
      savedOptions := ⟨some "zzz", none, none, []⟩ }

def demoFsDoc : RootDoc :=
  ⟨"__root__",
   some [.mk "fs" (some "fs") (some "none") (some "default") (some []) []],
   []⟩

/-- Witness for C10: two observably different interface states whose
documents coincide compare equal (equality is document equality, not
identity), and an `other` without `as_dict` compares `False`. -/
theorem c10_witness :
    c10Other.actionsRun ≠ demoFs.actionsRun ∧
    asDict demoFs = .ok demoFsDoc ∧
    fsEq c10Other (some demoFsDoc) = .ok true ∧
    fsEq demoFs none = .ok false := by
  have ha : asDict demoFs = .ok demoFsDoc := by
    simp [asDict, demoFs, getBlockMap, getBlockMapAux, demoBlock, setBlock,
      flowsheetNew, demoOpts, initConfig, getExportedVariables, exportVarsLoop,
      addToMapping, newData, pyStrOr, PBlock.withUI, PBlock.ui, PBlock.name,
      PBlock.docstr, PBlock.subBlocks, demoFsDoc]
  have hb : asDict c10Other = .ok demoFsDoc := by
    simp [asDict, c10Other, demoFs, getBlockMap, getBlockMapAux, demoBlock,
      setBlock, flowsheetNew, demoOpts, initConfig, getExportedVariables,
      exportVarsLoop, addToMapping, newData, pyStrOr, PBlock.withUI, PBlock.ui,
      PBlock.name, PBlock.docstr, PBlock.subBlocks, demoFsDoc]
  refine ⟨by decide, ha, ?_, (c10_eq_by_document demoFs).2.1⟩
  exact ((c10_eq_by_document c10Other).2.2 demoFsDoc demoFsDoc hb).mpr rfl

/-! ## Claim C1: definitions

Round-trip infrastructure.  `wfTree` captures the claim's premises
about the flowsheet: every block of the tree has an attached interface
whose declared variables exist on the block (as `export_variables`
guarantees), declared names are not repeated, the index lists of
declared indexed variables are duplicate-free (Pyomo index sets), and
variable/child names are unambiguous.  `sameShape` says the fresh tree
is identical to the saved one except possibly in the stored variable
values.  `exportTree` is the recursive specification of the document
`_get_block_map` builds; the stack algorithm is proved equal to it
below. -/

/-- Duplicate-freedom of a list, computably. -/
def nodupBy {α : Type} [BEq α] : List α → Bool
  | [] => true
  | x :: tl => !(tl.contains x) && nodupBy tl

/-- Duplicate-freedom of an indexed variable's index list (trivial for
scalars). -/
def nodupIdx (v : PVar) : Bool :=
  match v.val with
  | .scalar _ => true
  | .indexed es => nodupBy (es.map (·.1))

/-- Two variables of identical shape: same units, same doc string, and
the same kind of value with the same index tuples in the same order
(only the stored values may differ). -/
def varShape (v v' : PVar) : Bool :=
  v.units == v'.units && v.docstr == v'.docstr &&
    (match v.val, v'.val with
     | .scalar _, .scalar _ => true
     | .indexed es, .indexed es' => es.map (·.1) == es'.map (·.1)
     | _, _ => false)

/-- Pointwise shape equality of variable lists (same names in the same
order, each variable of identical shape). -/
def varsShape : List (String × PVar) → List (String × PVar) → Bool
  | [], [] => true
  | (a, v) :: tl, (a', v') :: tl' =>
    a == a' && varShape v v' && varsShape tl tl'
  | _, _ => false

mutual

/-- The fresh tree is identical to the original except possibly in
stored variable values: same names, doc strings, `None` attributes,
attached interface configurations, variables of the same shape, and
children pairwise of the same shape. -/
def sameShape : PBlock → PBlock → Bool
  | .mk n d vs subs na ui, .mk n' d' vs' subs' na' ui' =>
    n == n' && d == d' && na == na' && ui == ui' &&
      varsShape vs vs' && sameShapeList subs subs'

def sameShapeList : List PBlock → List PBlock → Bool
  | [], [] => true
  | c :: tl, c' :: tl' => sameShape c c' && sameShapeList tl tl'
  | _, _ => false

end

mutual

/-- The claim's premises on the saved flowsheet tree (see section
comment). -/
def wfTree : PBlock → Bool
  | .mk _ _ vs subs _ ui =>
    (match ui with
     | some cfg =>
       nodupBy (cfg.vars.map (·.name)) &&
         cfg.vars.all (fun e =>
           match (vs.find? (fun p => p.1 == e.name)).map (·.2) with
           | some v => nodupIdx v
           | none => false)
     | none => false) &&
      nodupBy (vs.map (·.1)) &&
      nodupBy (subs.map PBlock.name) &&
      wfForest subs

def wfForest : List PBlock → Bool
  | [] => true
  | c :: tl => wfTree c && wfForest tl

end

/-- The exported record list of a block interface, as a total
function of the declared entries (under `wfTree` every lookup
succeeds, so the `none` fallback is never exercised). -/
def exportVarsSpecList (b : PBlock) : List VarConfEntry → List DocVar
  | [] => []
  | item :: rest =>
    (match b.lookupVar item.name with
     | some v => exportOneVar item.name v
     | none => ⟨item.name, none, none, none, none⟩) ::
      exportVarsSpecList b rest

mutual

/-- Recursive specification of the document node `_get_block_map`
produces for a block (with `wfTree` every node carries an interface;
the interface-less fallback is the bare `{name, blocks}` node and is
never exercised under the claim's premises). -/
def exportTree : PBlock → DocBlock
  | .mk n d vs subs na ui =>
    match ui with
    | some cfg =>
      .mk n (some cfg.display_name) (some cfg.description)
        (some cfg.category)
        (some (exportVarsSpecList (.mk n d vs subs na ui) cfg.vars))
        (exportForest subs)
    | none => .mk n none none none none (exportForest subs)

/-- The sub-document list for a list of children: the stack pops
children in reverse `component_map` order, so the document lists them
reversed. -/
def exportForest : List PBlock → List DocBlock
  | [] => []
  | c :: tl => exportForest tl ++ [exportTree c]

end

/-- `find?` by name in a document block list. -/
def getNode (bs : List DocBlock) (k : String) : Option DocBlock :=
  bs.find? (fun d => d.name == k)

/-- The blocks list reached by descending a path of names. -/
def getPath : List DocBlock → List String → Option (List DocBlock)
  | bs, [] => some bs
  | bs, k :: rest =>
    match getNode bs k with
    | some d => getPath d.blocks rest
    | none => none

/-- Append a node to the blocks list at the end of a path (first
matching name at each level, mirroring `descendInsert`; total — on a
dead path it returns the input unchanged, which the reachability
hypotheses of the lemmas below rule out). -/
def appendAt : List DocBlock → List String → DocBlock → List DocBlock
  | bs, [], nd => bs ++ [nd]
  | [], _ :: _, _ => []
  | d :: tl, k :: rest, nd =>
    if d.name == k then d.withBlocks (appendAt d.blocks rest nd) :: tl
    else d :: appendAt tl (k :: rest) nd

/-- Insert the full export trees of a list of blocks, in order, under
a path. -/
def appendForest (bs : List DocBlock) (nodes : List String) :
    List PBlock → List DocBlock
  | [] => bs
  | c :: tl => appendForest (appendAt bs nodes (exportTree c)) nodes tl

/-- The `blocks` entry of the root mapping dict, `[]` when absent. -/
def mblocks (m : Mapping) : List DocBlock :=
  m.blocks.getD []

/-! ## Claim C1: lemmas about paths and insertion -/

theorem withBlocks_name (d : DocBlock) (x : List DocBlock) :
    (d.withBlocks x).name = d.name := by
  cases d; rfl

theorem withBlocks_blocks (d : DocBlock) (x : List DocBlock) :
    (d.withBlocks x).blocks = x := by
  cases d; rfl

theorem getNode_cons (d : DocBlock) (tl : List DocBlock) (k : String) :
    getNode (d :: tl) k = if d.name == k then some d else getNode tl k := by
  simp only [getNode, List.find?_cons]
  cases h : d.name == k <;> simp [h]

theorem getNode_none_all (bs : List DocBlock) (k : String)
    (h : getNode bs k = none) : ∀ d ∈ bs, (d.name == k) = false := by
  intro d hd
  rcases hb : d.name == k with _ | _
  · rfl
  · exfalso
    induction bs with
    | nil => simp at hd
    | cons x tl ih =>
      rw [getNode_cons] at h
      rcases List.mem_cons.mp hd with rfl | hmem
      · rw [hb] at h; simp at h
      · cases hx : x.name == k
        · rw [hx] at h; simp at h; exact ih h hmem
        · rw [hx] at h; simp at h

theorem getPath_append (bs : List DocBlock) (p q : List String) :
    getPath bs (p ++ q) =
      match getPath bs p with
      | some l => getPath l q
      | none => none := by
  induction p generalizing bs with
  | nil => simp [getPath]
  | cons k rest ih =>
    simp only [List.cons_append, getPath]
    cases getNode bs k with
    | none => rfl
    | some d => exact ih d.blocks

theorem descendInsert_eq : ∀ (nodes : List String) (bs inner : List DocBlock)
    (leaf : String) (nd : DocBlock),
    getPath bs nodes = some inner → getNode inner leaf = none →
    descendInsert bs nodes leaf nd = .ok (appendAt bs nodes nd) := by
  intro nodes
  induction nodes with
  | nil =>
    intro bs inner leaf nd hp hf
    have hbs : inner = bs := by simpa [getPath] using hp.symm
    subst hbs
    have hany : inner.any (fun sb => sb.name == leaf) = false := by
      rw [List.any_eq_false]
      intro d hd
      simp [getNode_none_all inner leaf hf d hd]
    simp [descendInsert, insertLeafList, hany, appendAt]
  | cons k rest ih =>
    intro bs
    induction bs with
    | nil =>
      intro inner leaf nd hp hf
      simp [getPath, getNode] at hp
    | cons d tl ihb =>
      intro inner leaf nd hp hf
      rw [getPath, getNode_cons] at hp
      cases hd : d.name == k with
      | true =>
        rw [hd] at hp
        simp only [if_true] at hp
        have hrec := ih d.blocks inner leaf nd hp hf
        simp [descendInsert, appendAt, hd, hrec]
      | false =>
        rw [hd] at hp
        simp only [Bool.false_eq_true, if_false] at hp
        have hrec := ihb inner leaf nd hp hf
        simp [descendInsert, appendAt, hd, hrec]

theorem addToMapping_eq (m : Mapping) (nodes : List String) (leaf : String)
    (nd : DocBlock) (inner : List DocBlock)
    (hp : getPath (mblocks m) nodes = some inner)
    (hf : getNode inner leaf = none) :
    addToMapping m nodes leaf nd =
      .ok ⟨some (appendAt (mblocks m) nodes nd)⟩ := by
  cases hm : m.blocks with
  | none =>
    have hmb : mblocks m = [] := by simp [mblocks, hm]
    rw [hmb] at hp
    cases nodes with
    | nil =>
      simp [addToMapping, hm, hmb, appendAt]
    | cons k rest => simp [getPath, getNode] at hp
  | some bs =>
    have hmb : mblocks m = bs := by simp [mblocks, hm]
    rw [hmb] at hp
    cases nodes with
    | nil =>
      have hbs : bs = inner := by simpa [getPath] using hp
      subst hbs
      have hany : bs.any (fun sb => sb.name == leaf) = false := by
        rw [List.any_eq_false]
        intro d hd
        simp [getNode_none_all bs leaf hf d hd]
      simp [addToMapping, hm, hmb, insertLeafList, hany, appendAt]
    | cons k rest =>
      have hde := descendInsert_eq (k :: rest) bs inner leaf nd hp hf
      simp [addToMapping, hm, hmb, hde]

theorem getPath_cons_eq (d : DocBlock) (tl : List DocBlock) (k : String)
    (rest : List String) (hd : (d.name == k) = true) :
    getPath (d :: tl) (k :: rest) = getPath d.blocks rest := by
  simp [getPath, getNode_cons, hd]

theorem getPath_cons_ne (d : DocBlock) (tl : List DocBlock) (k : String)
    (rest : List String) (hd : (d.name == k) = false) :
    getPath (d :: tl) (k :: rest) = getPath tl (k :: rest) := by
  simp [getPath, getNode_cons, hd]

theorem getPath_appendAt : ∀ (nodes : List String) (bs inner : List DocBlock)
    (nd : DocBlock), getPath bs nodes = some inner →
    getPath (appendAt bs nodes nd) nodes = some (inner ++ [nd]) := by
  intro nodes
  induction nodes with
  | nil =>
    intro bs inner nd hp
    have hbs : bs = inner := by simpa [getPath] using hp
    subst hbs
    simp [getPath, appendAt]
  | cons k rest ih =>
    intro bs
    induction bs with
    | nil =>
      intro inner nd hp
      simp [getPath, getNode] at hp
    | cons d tl ihb =>
      intro inner nd hp
      cases hd : d.name == k with
      | true =>
        rw [getPath_cons_eq d tl k rest hd] at hp
        have hrec := ih d.blocks inner nd hp
        simp only [appendAt, hd, if_true]
        rw [getPath_cons_eq _ _ _ _ (by rw [withBlocks_name]; exact hd),
          withBlocks_blocks]
        exact hrec
      | false =>
        rw [getPath_cons_ne d tl k rest hd] at hp
        have hrec := ihb inner nd hp
        simp only [appendAt, hd, Bool.false_eq_true, if_false]
        rw [getPath_cons_ne d _ k rest hd]
        exact hrec

theorem getNode_append_single (l : List DocBlock) (t : DocBlock)
    (nm : String) :
    getNode (l ++ [t]) nm =
      match getNode l nm with
      | some d => some d
      | none => if t.name == nm then some t else none := by
  induction l with
  | nil =>
    cases h : t.name == nm <;> simp [getNode, List.find?, h]
  | cons d tl ih =>
    rw [List.cons_append, getNode_cons, getNode_cons]
    cases hd : d.name == nm with
    | true => simp
    | false => simpa using ih

/-- Descending one more step, through a freshly appended node. -/
theorem getPath_appendAt_into (nodes : List String)
    (bs inner : List DocBlock) (nd : DocBlock)
    (hp : getPath bs nodes = some inner)
    (hf : getNode inner nd.name = none) :
    getPath (appendAt bs nodes nd) (nodes ++ [nd.name]) = some nd.blocks := by
  rw [getPath_append]
  rw [getPath_appendAt nodes bs inner nd hp]
  simp only [getPath]
  rw [getNode_append_single, hf]
  simp [getPath]

theorem appendAt_compose : ∀ (nodes : List String)
    (bs inner : List DocBlock) (nd t : DocBlock),
    getPath bs nodes = some inner → getNode inner nd.name = none →
    appendAt (appendAt bs nodes nd) (nodes ++ [nd.name]) t =
      appendAt bs nodes (nd.withBlocks (nd.blocks ++ [t])) := by
  intro nodes
  induction nodes with
  | nil =>
    intro bs inner nd t hp hf
    have hbs : bs = inner := by simpa [getPath] using hp
    subst hbs
    simp only [appendAt, List.nil_append]
    induction bs with
    | nil => simp [appendAt, withBlocks_name]
    | cons d tl ih =>
      have hd : (d.name == nd.name) = false :=
        getNode_none_all _ _ hf d (List.mem_cons_self _ _)
      rw [getNode_cons, hd] at hf
      simp only [Bool.false_eq_true, if_false] at hf
      have hrec := ih rfl hf
      simp only [List.cons_append, appendAt, hd, Bool.false_eq_true, if_false]
      rw [hrec]
  | cons k rest ih =>
    intro bs
    induction bs with
    | nil =>
      intro inner nd t hp hf
      simp [getPath, getNode] at hp
    | cons d tl ihb =>
      intro inner nd t hp hf
      cases hd : d.name == k with
      | true =>
        rw [getPath_cons_eq d tl k rest hd] at hp
        have hrec := ih d.blocks inner nd t hp hf
        simp only [appendAt, hd, if_true, List.cons_append]
        rw [show ((d.withBlocks (appendAt d.blocks rest nd)).name == k) = true
            from by rw [withBlocks_name]; exact hd]
        simp only [if_true, withBlocks_blocks]
        rw [hrec]
        cases d; rfl
      | false =>
        rw [getPath_cons_ne d tl k rest hd] at hp
        have hrec := ihb inner nd t hp hf
        simp only [List.cons_append] at hrec
        simp only [appendAt, hd, Bool.false_eq_true, if_false,
          List.cons_append]
        rw [hrec]

theorem withBlocks_self (d : DocBlock) : d.withBlocks d.blocks = d := by
  cases d; rfl

theorem getNode_nil (k : String) : getNode [] k = none := rfl

theorem exportTree_name (b : PBlock) : (exportTree b).name = b.name := by
  cases b with
  | mk n d vs subs na ui => cases ui <;> simp [exportTree, PBlock.name, DocBlock.name]

theorem exportForest_eq_reverse_map (l : List PBlock) :
    exportForest l = l.reverse.map exportTree := by
  induction l with
  | nil => rfl
  | cons c tl ih => simp [exportForest, ih]

theorem nodupBy_pairwise {α : Type} [BEq α] [LawfulBEq α] :
    ∀ l : List α, nodupBy l = true → l.Pairwise (fun a b => a ≠ b) := by
  intro l
  induction l with
  | nil => intro _; exact List.Pairwise.nil
  | cons x tl ih =>
    intro h
    simp only [nodupBy, Bool.and_eq_true, Bool.not_eq_true'] at h
    refine List.Pairwise.cons ?_ (ih h.2)
    intro y hy hxy
    subst hxy
    rw [List.contains_eq_any_beq] at h
    have := h.1
    rw [List.any_eq_false] at this
    exact absurd (by simp) (this x hy)

theorem appendForest_compose : ∀ (l : List PBlock)
    (bs inner : List DocBlock) (nodes : List String) (nm : String)
    (nd : DocBlock), nd.name = nm →
    getPath bs nodes = some inner → getNode inner nm = none →
    appendForest (appendAt bs nodes nd) (nodes ++ [nm]) l =
      appendAt bs nodes (nd.withBlocks (nd.blocks ++ l.map exportTree)) := by
  intro l
  induction l with
  | nil =>
    intro bs inner nodes nm nd hnm hp hf
    simp [appendForest, withBlocks_self]
  | cons c tl ih =>
    intro bs inner nodes nm nd hnm hp hf
    rw [appendForest]
    rw [show nodes ++ [nm] = nodes ++ [nd.name] from by rw [hnm]]
    rw [appendAt_compose nodes bs inner nd (exportTree c) hp (hnm ▸ hf)]
    have hnm' : (nd.withBlocks (nd.blocks ++ [exportTree c])).name = nm := by
      rw [withBlocks_name, hnm]
    rw [show nodes ++ [nd.name] = nodes ++ [nm] from by rw [hnm]]
    rw [ih bs inner nodes nm _ hnm' hp hf]
    congr 1
    rw [withBlocks_blocks]
    cases nd
    simp [DocBlock.withBlocks, DocBlock.blocks]

theorem wfForest_mem : ∀ (l : List PBlock), wfForest l = true →
    ∀ c ∈ l, wfTree c = true := by
  intro l
  induction l with
  | nil => intro _ c hc; simp at hc
  | cons x tl ih =>
    intro h c hc
    simp only [wfForest, Bool.and_eq_true] at h
    rcases List.mem_cons.mp hc with rfl | hmem
    · exact h.1
    · exact ih h.2 c hmem

theorem wfTree_parts (n : String) (d : Option String)
    (vs : List (String × PVar)) (subs : List PBlock) (na : List String)
    (cfg : UIConfig) (h : wfTree (.mk n d vs subs na (some cfg)) = true) :
    nodupBy (cfg.vars.map (·.name)) = true ∧
    (∀ item ∈ cfg.vars, ∃ v,
      (vs.find? (fun p => p.1 == item.name)).map (·.2) = some v ∧
      nodupIdx v = true) ∧
    nodupBy (vs.map (·.1)) = true ∧
    nodupBy (subs.map PBlock.name) = true ∧
    wfForest subs = true := by
  simp only [wfTree, Bool.and_eq_true] at h
  obtain ⟨⟨⟨⟨h1, h2⟩, h3⟩, h4⟩, h5⟩ := h
  refine ⟨h1, ?_, h3, h4, h5⟩
  intro item hitem
  have := (List.all_eq_true.mp h2) item hitem
  cases hfind : (vs.find? (fun p => p.1 == item.name)).map (·.2) with
  | none => rw [hfind] at this; simp at this
  | some v => rw [hfind] at this; exact ⟨v, rfl, this⟩

theorem wfTree_ui_none (n : String) (d : Option String)
    (vs : List (String × PVar)) (subs : List PBlock) (na : List String) :
    wfTree (.mk n d vs subs na none) = false := by
  simp [wfTree]

theorem getattr_of_lookupVar (b : PBlock) (n : String) (v : PVar)
    (h : b.lookupVar n = some v) : b.getattr n = some (.var v) := by
  unfold PBlock.getattr
  rw [h]

theorem exportVarsLoop_spec : ∀ (items : List VarConfEntry) (b : PBlock),
    (∀ item ∈ items, (b.lookupVar item.name).isSome = true) →
    exportVarsLoop b items = .ok (exportVarsSpecList b items) := by
  intro items
  induction items with
  | nil => intro b _; rfl
  | cons item rest ih =>
    intro b h
    rcases hv : b.lookupVar item.name with _ | v
    · have := h item (List.mem_cons_self _ _)
      rw [hv] at this; simp at this
    · rw [exportVarsLoop, getattr_of_lookupVar b item.name v hv,
        ih b (fun i hi => h i (List.mem_cons_of_mem _ hi))]
      simp [exportVarsSpecList, hv]

theorem PBlock.name_mk (n : String) (d : Option String)
    (vs : List (String × PVar)) (subs : List PBlock) (na : List String)
    (ui : Option UIConfig) : (PBlock.mk n d vs subs na ui).name = n := rfl

theorem PBlock.ui_mk (n : String) (d : Option String)
    (vs : List (String × PVar)) (subs : List PBlock) (na : List String)
    (ui : Option UIConfig) : (PBlock.mk n d vs subs na ui).ui = ui := rfl

theorem PBlock.subBlocks_mk (n : String) (d : Option String)
    (vs : List (String × PVar)) (subs : List PBlock) (na : List String)
    (ui : Option UIConfig) : (PBlock.mk n d vs subs na ui).subBlocks = subs := rfl

theorem weightList_reverse (l : List PBlock) :
    weightList l.reverse = weightList l := by
  rw [weightList_eq_sum, weightList_eq_sum, List.map_reverse, List.sum_reverse]

theorem PBlock.weight_pos (b : PBlock) : 1 ≤ b.weight := by
  cases b with
  | mk n d vs subs na ui => simp [PBlock.weight]

mutual

theorem stackProcess_tree : ∀ (b : PBlock) (nodes : List String)
    (rest : List ((List String × String) × PBlock)) (m : Mapping)
    (inner : List DocBlock), wfTree b = true →
    getPath (mblocks m) nodes = some inner →
    getNode inner b.name = none →
    getBlockMapAux (((nodes, b.name), b) :: rest) m =
      getBlockMapAux rest ⟨some (appendAt (mblocks m) nodes (exportTree b))⟩
  | .mk n d vs subs na ui => by
    intro nodes rest m inner hwf hp hf
    cases ui with
    | none => rw [wfTree_ui_none] at hwf; cases hwf
    | some cfg =>
      obtain ⟨hnd1, hpres0, hnd2, hnd3, hwff⟩ := wfTree_parts n d vs subs na cfg hwf
      have hpres : ∀ item ∈ cfg.vars,
          ((PBlock.mk n d vs subs na (some cfg)).lookupVar item.name).isSome = true := by
        intro item hitem
        obtain ⟨v, hv, -⟩ := hpres0 item hitem
        simp [PBlock.lookupVar, PBlock.vars, hv]
      have hexp := exportVarsLoop_spec cfg.vars (.mk n d vs subs na (some cfg)) hpres
      set nd0 := newData n cfg (exportVarsSpecList (.mk n d vs subs na (some cfg)) cfg.vars) with hnd0def
      have hndname : nd0.name = n := rfl
      have hins := addToMapping_eq m nodes n nd0 inner hp (by rw [← hndname] at hf; exact hf)
      rw [show (PBlock.mk n d vs subs na (some cfg)).name = n from rfl] at *
      simp only [getBlockMapAux, PBlock.ui_mk, PBlock.name_mk,
        PBlock.subBlocks_mk, getExportedVariables, hexp, hins]
      have hpath1 := getPath_appendAt_into nodes (mblocks m) inner nd0 hp
        (by rw [hndname]; exact hf)
      rw [hndname] at hpath1
      have hpw : (subs.reverse).Pairwise (fun a b => a.name ≠ b.name) := by
        rw [List.pairwise_reverse]
        have h0 := nodupBy_pairwise (subs.map PBlock.name) hnd3
        rw [List.pairwise_map] at h0
        exact h0.imp (fun hab => fun hxy => hab (by rw [hxy]))
      have hwfr : ∀ c ∈ subs.reverse, wfTree c = true := by
        intro c hc
        exact wfForest_mem subs hwff c (List.mem_reverse.mp hc)
      have hforest := stackProcess_forest subs.reverse (nodes ++ [n]) rest
        (appendAt (mblocks m) nodes nd0) nd0.blocks hwfr hpw hpath1
        (by
          intro c hc
          rw [show nd0.blocks = ([] : List DocBlock) from rfl]
          exact getNode_nil c.name)
      rw [hforest]
      have hcomp := appendForest_compose subs.reverse (mblocks m) inner nodes n
        nd0 hndname hp hf
      rw [hcomp]
      have : nd0.withBlocks (nd0.blocks ++ subs.reverse.map exportTree) =
          exportTree (.mk n d vs subs na (some cfg)) := by
        rw [show nd0.blocks = ([] : List DocBlock) from rfl]
        rw [← exportForest_eq_reverse_map]
        simp [hnd0def, newData, DocBlock.withBlocks, exportTree]
      rw [this]
termination_by b => 2 * b.weight
decreasing_by
  simp only [weightList_reverse, PBlock.weight]
  omega

theorem stackProcess_forest : ∀ (l : List PBlock) (nodes : List String)
    (rest : List ((List String × String) × PBlock)) (bs inner : List DocBlock),
    (∀ c ∈ l, wfTree c = true) →
    l.Pairwise (fun a b => a.name ≠ b.name) →
    getPath bs nodes = some inner →
    (∀ c ∈ l, getNode inner c.name = none) →
    getBlockMapAux (l.map (fun sb => ((nodes, sb.name), sb)) ++ rest)
        ⟨some bs⟩ =
      getBlockMapAux rest ⟨some (appendForest bs nodes l)⟩
  | [] => by
    intro nodes rest bs inner _ _ _ _
    simp [appendForest]
  | c :: tl => by
    intro nodes rest bs inner hwf hpw hp hf
    simp only [List.map_cons, List.cons_append]
    have hmb : mblocks ⟨some bs⟩ = bs := rfl
    have htree := stackProcess_tree c nodes
      (tl.map (fun sb => ((nodes, sb.name), sb)) ++ rest) ⟨some bs⟩ inner
      (hwf c (List.mem_cons_self _ _)) (by rw [hmb]; exact hp)
      (hf c (List.mem_cons_self _ _))
    rw [hmb] at htree
    rw [htree]
    have hp1 := getPath_appendAt nodes bs inner (exportTree c) hp
    have hpwtl := List.Pairwise.sublist (List.sublist_cons_self c tl) hpw
    have hftl : ∀ c2 ∈ tl, getNode (inner ++ [exportTree c]) c2.name = none := by
      intro c2 hc2
      rw [getNode_append_single, hf c2 (List.mem_cons_of_mem _ hc2)]
      have hne : c.name ≠ c2.name := (List.pairwise_cons.mp hpw).1 c2 hc2
      rw [exportTree_name]
      simp [hne]
    have hrest := stackProcess_forest tl nodes rest
      (appendAt bs nodes (exportTree c)) (inner ++ [exportTree c])
      (fun c2 hc2 => hwf c2 (List.mem_cons_of_mem _ hc2)) hpwtl hp1 hftl
    rw [hrest]
    rfl
termination_by l => 2 * weightList l + 1
decreasing_by
  · have hc := PBlock.weight_pos c
    simp only [weightList]
    omega
  · have hc := PBlock.weight_pos c
    simp only [weightList]
    omega

end

/-- The stack algorithm of `_get_block_map` computes the recursive
export specification: for a well-formed tree the mapping is exactly
`{blocks: [exportTree b]}`. -/
theorem getBlockMap_spec (b : PBlock) (hwf : wfTree b = true) :
    getBlockMap b = .ok ⟨some [exportTree b]⟩ := by
  unfold getBlockMap
  have h := stackProcess_tree b [] [] ⟨none⟩ [] hwf
    (by simp [mblocks, getPath]) (getNode_nil b.name)
  rw [h]
  simp [getBlockMapAux, appendAt, mblocks]

/-- `as_dict()` of a bound, well-formed flowsheet interface. -/
theorem asDict_spec (st : FState) (b : PBlock) (hb : st.block = some b)
    (hwf : wfTree b = true) :
    asDict st = .ok ⟨"__root__", some [exportTree b], st.meta⟩ := by
  unfold asDict
  rw [hb]
  dsimp only
  rw [getBlockMap_spec b hwf]

/-! ## Claim C1: load-side lemmas -/

theorem map_update_id (l : List (VIndex × SVal)) (i : VIndex) (v : SVal)
    (h : ∀ e ∈ l, (e.1 == i) = false) :
    l.map (fun e => if e.1 == i then (e.1, v) else e) = l := by
  induction l with
  | nil => rfl
  | cons e tl ih =>
    simp only [List.map_cons, h e (List.mem_cons_self _ _),
      Bool.false_eq_true, if_false]
    rw [ih (fun x hx => h x (List.mem_cons_of_mem _ hx))]

theorem setIndexedItems_prefix : ∀ (items pre en : List (VIndex × SVal)),
    (∀ iv ∈ items, ∀ p ∈ pre, (p.1 == iv.1) = false) →
    setIndexedItems (pre ++ en) items =
      match setIndexedItems en items with
      | .ok r => .ok (pre ++ r)
      | .error e => .error e := by
  intro items
  induction items with
  | nil => intro pre en _; rfl
  | cons iv tl ih =>
    intro pre en hpre
    obtain ⟨i, v⟩ := iv
    have hpreany : ∀ p ∈ pre, (p.1 == i) = false := by
      intro p hp
      exact hpre (i, v) (List.mem_cons_self _ _) p hp
    simp only [setIndexedItems]
    cases hany : en.any (fun e => e.1 == i) with
    | true =>
      have hany2 : (pre ++ en).any (fun e => e.1 == i) = true := by
        rw [List.any_append, hany]
        simp
      rw [hany2]
      simp only [if_true, List.map_append]
      rw [map_update_id pre i v hpreany]
      exact ih pre (en.map (fun e => if e.1 == i then (e.1, v) else e))
        (fun iv2 h2 p hp => hpre iv2 (List.mem_cons_of_mem _ h2) p hp)
    | false =>
      have hany2 : (pre ++ en).any (fun e => e.1 == i) = false := by
        rw [List.any_append, hany]
        simp only [Bool.or_false]
        rw [List.any_eq_false]
        intro p hp
        simp [hpreany p hp]
      rw [hany2]
      simp

theorem setIndexedItems_roundtrip : ∀ (es es' : List (VIndex × SVal)),
    es.map (·.1) = es'.map (·.1) → nodupBy (es.map (·.1)) = true →
    setIndexedItems es' es = .ok es := by
  intro es
  induction es with
  | nil =>
    intro es' hmap _
    have h0 : es' = [] := by
      cases es' with
      | nil => rfl
      | cons x tl => simp at hmap
    subst h0
    rfl
  | cons e tl ih =>
    intro es' hmap hnd
    obtain ⟨i0, v0⟩ := e
    cases es' with
    | nil => simp at hmap
    | cons e' tl' =>
      obtain ⟨i0', v0'⟩ := e'
      simp only [List.map_cons, List.cons.injEq] at hmap
      obtain ⟨hi0, htl⟩ := hmap
      subst hi0
      simp only [List.map_cons, nodupBy, Bool.and_eq_true,
        Bool.not_eq_true'] at hnd
      obtain ⟨hni, hndtl⟩ := hnd
      have hnotl : ∀ x ∈ tl, (x.1 == i0) = false := by
        intro x hx
        rcases h : x.1 == i0 with _ | _
        · rfl
        · exfalso
          have hx1 : x.1 = i0 := eq_of_beq h
          rw [List.contains_eq_any_beq, List.any_eq_false] at hni
          have h2 := hni x.1 (List.mem_map_of_mem _ hx)
          rw [hx1] at h2
          simp at h2
      simp only [setIndexedItems]
      have hany : ((i0, v0') :: tl').any (fun e => e.1 == i0) = true := by
        simp [List.any_cons]
      rw [hany]
      simp only [if_true, List.map_cons]
      have hupd : (if ((i0, v0') : VIndex × SVal).1 == i0
          then (((i0, v0') : VIndex × SVal).1, v0) else (i0, v0')) = (i0, v0) := by
        simp
      rw [hupd]
      have hupd2 : tl'.map (fun e => if e.1 == i0 then (e.1, v0) else e) = tl' := by
        apply map_update_id
        intro e he
        have hmem : e.1 ∈ tl.map (·.1) := by
          rw [htl]; exact List.mem_map_of_mem _ he
        obtain ⟨x, hx, hxe⟩ := List.mem_map.mp hmem
        rw [← hxe]
        exact hnotl x hx
      rw [hupd2]
      have hpre := setIndexedItems_prefix tl [(i0, v0)] tl' (by
        intro iv hiv p hp
        rcases List.mem_singleton.mp hp with rfl
        rcases h : ((i0, v0) : VIndex × SVal).1 == iv.1 with _ | _
        · rfl
        · exfalso
          have : i0 = iv.1 := eq_of_beq h
          have h2 := hnotl iv hiv
          rw [← this] at h2
          simp at h2)
      rw [List.singleton_append] at hpre
      rw [hpre, ih tl' htl hndtl]
      simp

theorem applyDocValue_rt (bcur : PBlock) (n : String) (v v' : PVar)
    (hsh : varShape v v' = true) (hni : nodupIdx v = true) :
    applyDocValue bcur n v' (some (variableValue v)) =
      .ok (bcur.setVarVal n v.val) := by
  simp only [varShape, Bool.and_eq_true] at hsh
  obtain ⟨-, hform⟩ := hsh
  cases hv : v.val with
  | scalar sv =>
    rw [hv] at hform
    cases hv' : v'.val with
    | scalar sv' =>
      simp [variableValue, applyDocValue, hv, hv']
    | indexed es' => rw [hv'] at hform; simp at hform
  | indexed es =>
    rw [hv] at hform
    cases hv' : v'.val with
    | scalar sv' => rw [hv'] at hform; simp at hform
    | indexed es' =>
      rw [hv'] at hform
      simp only [beq_iff_eq] at hform
      have hset := setIndexedItems_roundtrip es es' hform (by
        rw [nodupIdx, hv] at hni; exact hni)
      simp [variableValue, applyDocValue, hv, hv', hset]

theorem setVarVal_fields (b : PBlock) (n : String) (vv : VarVal) :
    (b.setVarVal n vv).name = b.name ∧
    (b.setVarVal n vv).docstr = b.docstr ∧
    (b.setVarVal n vv).ui = b.ui ∧
    (b.setVarVal n vv).subBlocks = b.subBlocks ∧
    (b.setVarVal n vv).noneAttrs = b.noneAttrs := by
  cases b
  exact ⟨rfl, rfl, rfl, rfl, rfl⟩

/-- List-level variable lookup and update (the `vars` components of
`PBlock.lookupVar` / `PBlock.setVarVal`). -/
def lookupVarL (l : List (String × PVar)) (n : String) : Option PVar :=
  (l.find? (fun p => p.1 == n)).map (·.2)

def setVarValL (l : List (String × PVar)) (n : String) (vv : VarVal) :
    List (String × PVar) :=
  l.map (fun p => if p.1 == n then (p.1, { p.2 with val := vv }) else p)

theorem lookupVar_eq_L (b : PBlock) (n : String) :
    b.lookupVar n = lookupVarL b.vars n := rfl

theorem setVarVal_vars (b : PBlock) (n : String) (vv : VarVal) :
    (b.setVarVal n vv).vars = setVarValL b.vars n vv := by
  cases b; rfl

theorem lookupVarL_set_ne (l : List (String × PVar)) (n m : String)
    (vv : VarVal) (h : (m == n) = false) :
    lookupVarL (setVarValL l n vv) m = lookupVarL l m := by
  induction l with
  | nil => rfl
  | cons p tl ih =>
    obtain ⟨a, w⟩ := p
    by_cases ha : a = n
    · subst ha
      have ham : (a == m) = false := by
        rcases h2 : a == m with _ | _
        · rfl
        · exfalso
          have := eq_of_beq h2
          subst this
          simp at h
      simp only [setVarValL, List.map_cons, beq_self_eq_true, if_true]
      simp only [lookupVarL, List.find?_cons, ham]
      simpa [setVarValL, lookupVarL] using ih
    · have han : (a == n) = false := by
        rcases h2 : a == n with _ | _
        · rfl
        · exact absurd (eq_of_beq h2) ha
      simp only [setVarValL, List.map_cons, han, Bool.false_eq_true, if_false]
      cases h2 : a == m with
      | true => simp [lookupVarL, List.find?_cons, h2]
      | false =>
        simp only [lookupVarL, List.find?_cons, h2]
        simpa [setVarValL, lookupVarL] using ih

theorem lookupVarL_set_self (l : List (String × PVar)) (n : String)
    (vv : VarVal) :
    lookupVarL (setVarValL l n vv) n =
      (lookupVarL l n).map (fun v => { v with val := vv }) := by
  induction l with
  | nil => rfl
  | cons p tl ih =>
    obtain ⟨a, w⟩ := p
    cases ha : a == n with
    | true =>
      have ha' : a = n := eq_of_beq ha
      subst ha'
      simp only [setVarValL, List.map_cons, beq_self_eq_true, if_true,
        lookupVarL, List.find?_cons]
      rfl
    | false =>
      simp only [setVarValL, List.map_cons, ha, Bool.false_eq_true, if_false]
      simp only [lookupVarL, List.find?_cons, ha]
      simpa [setVarValL, lookupVarL] using ih

theorem varShape_val_set (v v' : PVar) (h : varShape v v' = true) :
    varShape v { v' with val := v.val } = true := by
  simp only [varShape, Bool.and_eq_true] at h ⊢
  refine ⟨⟨h.1.1, h.1.2⟩, ?_⟩
  cases hv : v.val with
  | scalar sv => simp
  | indexed es => simp

theorem varShape_to_eq (v v' : PVar) (h : varShape v v' = true) :
    ({ v' with val := v.val } : PVar) = v := by
  simp only [varShape, Bool.and_eq_true, beq_iff_eq] at h
  obtain ⟨⟨h1, h2⟩, -⟩ := h
  cases v with
  | mk val units docstr =>
    cases v' with
    | mk val' units' docstr' =>
      simp only at h1 h2
      simp [h1, h2]

theorem varsShape_names : ∀ (vs vs' : List (String × PVar)),
    varsShape vs vs' = true → vs.map (·.1) = vs'.map (·.1) := by
  intro vs
  induction vs with
  | nil =>
    intro vs' h
    cases vs' with
    | nil => rfl
    | cons p tl => simp [varsShape] at h
  | cons p tl ih =>
    intro vs' h
    obtain ⟨a, w⟩ := p
    cases vs' with
    | nil => simp [varsShape] at h
    | cons p' tl' =>
      obtain ⟨a', w'⟩ := p'
      simp only [varsShape, Bool.and_eq_true, beq_iff_eq] at h
      obtain ⟨⟨h1, -⟩, h3⟩ := h
      simp only [List.map_cons]
      rw [h1, ih tl' h3]

theorem varsShape_lookup : ∀ (vs vs' : List (String × PVar)) (n : String)
    (v : PVar), varsShape vs vs' = true → lookupVarL vs n = some v →
    ∃ v', lookupVarL vs' n = some v' ∧ varShape v v' = true := by
  intro vs
  induction vs with
  | nil => intro vs' n v _ hv; simp [lookupVarL] at hv
  | cons p tl ih =>
    intro vs' n v hsh hv
    obtain ⟨a, w⟩ := p
    cases vs' with
    | nil => simp [varsShape] at hsh
    | cons p' tl' =>
      obtain ⟨a', w'⟩ := p'
      simp only [varsShape, Bool.and_eq_true, beq_iff_eq] at hsh
      obtain ⟨⟨h1, h2⟩, h3⟩ := hsh
      subst h1
      cases ha : a == n with
      | true =>
        simp only [lookupVarL, List.find?_cons, ha] at hv ⊢
        refine ⟨w', rfl, ?_⟩
        have hwv : w = v := by simpa using hv
        rw [← hwv]
        exact h2
      | false =>
        simp only [lookupVarL, List.find?_cons, ha] at hv ⊢
        exact ih tl' n v h3 hv

theorem setVarValL_not_mem (l : List (String × PVar)) (n : String)
    (vv : VarVal) (h : ∀ p ∈ l, (p.1 == n) = false) :
    setVarValL l n vv = l := by
  induction l with
  | nil => rfl
  | cons p tl ih =>
    simp only [setVarValL, List.map_cons, h p (List.mem_cons_self _ _),
      Bool.false_eq_true, if_false]
    have := ih (fun q hq => h q (List.mem_cons_of_mem _ hq))
    simp only [setVarValL] at this
    rw [this]

theorem varsShape_set : ∀ (vs vs' : List (String × PVar)) (n : String)
    (v : PVar), nodupBy (vs.map (·.1)) = true → varsShape vs vs' = true →
    lookupVarL vs n = some v →
    varsShape vs (setVarValL vs' n v.val) = true := by
  intro vs
  induction vs with
  | nil => intro vs' n v _ _ hv; simp [lookupVarL] at hv
  | cons p tl ih =>
    intro vs' n v hnd hsh hv
    obtain ⟨a, w⟩ := p
    cases vs' with
    | nil => simp [varsShape] at hsh
    | cons p' tl' =>
      obtain ⟨a', w'⟩ := p'
      simp only [varsShape, Bool.and_eq_true, beq_iff_eq] at hsh
      obtain ⟨⟨h1, h2⟩, h3⟩ := hsh
      subst h1
      simp only [List.map_cons, nodupBy, Bool.and_eq_true,
        Bool.not_eq_true'] at hnd
      obtain ⟨hni, hndtl⟩ := hnd
      cases ha : a == n with
      | true =>
        have han : a = n := eq_of_beq ha
        simp only [lookupVarL, List.find?_cons, ha] at hv
        have hwv : w = v := by simpa using hv
        rw [hwv] at h2
        simp only [setVarValL, List.map_cons, ha, if_true]
        have htl' : setVarValL tl' n v.val = tl' := by
          apply setVarValL_not_mem
          intro q hq
          have hqn : q.1 ∈ tl.map (·.1) := by
            rw [varsShape_names tl tl' h3]
            exact List.mem_map_of_mem _ hq
          rcases hc : q.1 == n with _ | _
          · rfl
          · exfalso
            have : q.1 = n := eq_of_beq hc
            rw [this, ← han] at hqn
            rw [List.contains_eq_any_beq, List.any_eq_false] at hni
            have h5 := hni a hqn
            simp at h5
        simp only [setVarValL] at htl'
        rw [htl']
        simp only [varsShape, Bool.and_eq_true]
        refine ⟨⟨by simp, ?_⟩, h3⟩
        rw [hwv]
        exact varShape_val_set v w' h2
      | false =>
        simp only [setVarValL, List.map_cons, ha, Bool.false_eq_true, if_false]
        simp only [lookupVarL, List.find?_cons, ha] at hv
        have := ih tl' n v hndtl h3 hv
        simp only [setVarValL] at this
        simp only [varsShape, Bool.and_eq_true]
        exact ⟨⟨by simp, h2⟩, this⟩

theorem exportOneVar_name (n : String) (v : PVar) :
    (exportOneVar n v).name = n := rfl

theorem exportOneVar_value (n : String) (v : PVar) :
    (exportOneVar n v).value = some (variableValue v) := rfl

theorem nodupBy_head {α : Type} [BEq α] (x : α) (l : List α)
    (h : nodupBy (x :: l) = true) : l.contains x = false ∧ nodupBy l = true := by
  simp only [nodupBy, Bool.and_eq_true, Bool.not_eq_true'] at h
  exact h

theorem not_mem_of_contains_false {α : Type} [BEq α] [LawfulBEq α]
    (x : α) (l : List α) (h : l.contains x = false) : x ∉ l := by
  intro hmem
  rw [List.contains_eq_any_beq, List.any_eq_false] at h
  exact absurd (by simp) (h x hmem)

theorem loadVarsLoop_rt : ∀ (items : List VarConfEntry) (b bcur : PBlock)
    (miss : List MissingItem),
    (∀ e ∈ items, ∃ v, b.lookupVar e.name = some v ∧ nodupIdx v = true) →
    nodupBy (items.map (·.name)) = true →
    nodupBy (b.vars.map (·.1)) = true →
    varsShape b.vars bcur.vars = true →
    ∃ bcur2, loadVarsLoop bcur miss (items.map (·.name))
        (exportVarsSpecList b items) = .ok (bcur2, miss, []) ∧
      bcur2.name = bcur.name ∧ bcur2.docstr = bcur.docstr ∧
      bcur2.ui = bcur.ui ∧ bcur2.subBlocks = bcur.subBlocks ∧
      bcur2.noneAttrs = bcur.noneAttrs ∧
      varsShape b.vars bcur2.vars = true ∧
      (∀ e ∈ items, bcur2.lookupVar e.name = b.lookupVar e.name) ∧
      (∀ m, m ∉ items.map (·.name) → bcur2.lookupVar m = bcur.lookupVar m) := by
  intro items
  induction items with
  | nil =>
    intro b bcur miss _ _ _ hsh
    exact ⟨bcur, rfl, rfl, rfl, rfl, rfl, rfl, hsh, by simp, fun m _ => rfl⟩
  | cons it rest ih =>
    intro b bcur miss hpres hndI hndB hsh
    obtain ⟨v, hv, hni⟩ := hpres it (List.mem_cons_self _ _)
    have hspec : exportVarsSpecList b (it :: rest) =
        exportOneVar it.name v :: exportVarsSpecList b rest := by
      simp only [exportVarsSpecList]
      rw [hv]
    obtain ⟨v', hv', hshv⟩ := varsShape_lookup b.vars bcur.vars it.name v hsh
      (by rw [← lookupVar_eq_L]; exact hv)
    have hga : bcur.getattr it.name = some (.var v') :=
      getattr_of_lookupVar bcur it.name v' (by rw [lookupVar_eq_L]; exact hv')
    have happ := applyDocValue_rt bcur it.name v v' hshv hni
    rw [List.map_cons] at hndI
    obtain ⟨hcont, hndrest⟩ := nodupBy_head it.name (rest.map (·.name)) hndI
    have hnotin : it.name ∉ rest.map (·.name) :=
      not_mem_of_contains_false _ _ hcont
    set bcur1 := bcur.setVarVal it.name v.val with hbcur1
    have hsh1 : varsShape b.vars bcur1.vars = true := by
      rw [hbcur1, setVarVal_vars]
      exact varsShape_set b.vars bcur.vars it.name v hndB hsh
        (by rw [← lookupVar_eq_L]; exact hv)
    obtain ⟨bcur2, heq, hf1, hf2, hf3, hf4, hf5, hsh2, hlk2, hfr2⟩ :=
      ih b bcur1 miss
        (fun e he => hpres e (List.mem_cons_of_mem _ he)) hndrest hndB hsh1
    have hfields := setVarVal_fields bcur it.name v.val
    refine ⟨bcur2, ?_, hf1.trans hfields.1, hf2.trans hfields.2.1,
      hf3.trans hfields.2.2.1, hf4.trans hfields.2.2.2.1,
      hf5.trans hfields.2.2.2.2, hsh2, ?_, ?_⟩
    · rw [hspec]
      simp only [List.map_cons]
      rw [loadVarsLoop]
      simp only [exportOneVar_name, hga, exportOneVar_value, happ,
        List.mem_cons, List.erase_cons_head]
      simp only [true_or, if_true]
      exact heq
    · intro e he
      rcases List.mem_cons.mp he with rfl | hmem
      · rw [hfr2 e.name hnotin, hbcur1, lookupVar_eq_L, setVarVal_vars,
          lookupVarL_set_self, hv', hv]
        simp [varShape_to_eq v v' hshv]
      · exact hlk2 e hmem
    · intro m hm
      have hm1 : m ∉ rest.map (·.name) := by
        intro hx
        exact hm (by simp [List.map_cons]; right; exact (by
          obtain ⟨x, hx1, hx2⟩ := List.mem_map.mp hx
          exact ⟨x, hx1, hx2⟩))
      have hm2 : m ≠ it.name := by
        intro hx
        exact hm (by simp [hx])
      rw [hfr2 m hm1, hbcur1, lookupVar_eq_L, setVarVal_vars,
        lookupVarL_set_ne _ _ _ _ (by
          rcases hq : m == it.name with _ | _
          · rfl
          · exact absurd (eq_of_beq hq) hm2),
        ← lookupVar_eq_L]

theorem sameShape_parts (n : String) (d : Option String)
    (vs : List (String × PVar)) (subs : List PBlock) (na : List String)
    (ui : Option UIConfig) (n' : String) (d' : Option String)
    (vs' : List (String × PVar)) (subs' : List PBlock) (na' : List String)
    (ui' : Option UIConfig)
    (h : sameShape (.mk n d vs subs na ui) (.mk n' d' vs' subs' na' ui') = true) :
    n = n' ∧ d = d' ∧ na = na' ∧ ui = ui' ∧ varsShape vs vs' = true ∧
    sameShapeList subs subs' = true := by
  simp only [sameShape, Bool.and_eq_true, beq_iff_eq] at h
  obtain ⟨⟨⟨⟨⟨h1, h2⟩, h3⟩, h4⟩, h5⟩, h6⟩ := h
  exact ⟨h1, h2, h3, h4, h5, h6⟩

theorem sameShape_name (c c' : PBlock) (h : sameShape c c' = true) :
    c.name = c'.name := by
  cases c with
  | mk n d vs subs na ui =>
    cases c' with
    | mk n' d' vs' subs' na' ui' =>
      exact (sameShape_parts n d vs subs na ui n' d' vs' subs' na' ui' h).1

theorem sameShapeList_names : ∀ (l l' : List PBlock),
    sameShapeList l l' = true → l.map PBlock.name = l'.map PBlock.name := by
  intro l
  induction l with
  | nil =>
    intro l' h
    cases l' with
    | nil => rfl
    | cons c tl => simp [sameShapeList] at h
  | cons c tl ih =>
    intro l' h
    cases l' with
    | nil => simp [sameShapeList] at h
    | cons c' tl' =>
      simp only [sameShapeList, Bool.and_eq_true] at h
      simp only [List.map_cons, sameShape_name c c' h.1, ih tl' h.2]

theorem nodupIdx_of_varShape (v v' : PVar) (hsh : varShape v v' = true)
    (h : nodupIdx v = true) : nodupIdx v' = true := by
  simp only [varShape, Bool.and_eq_true] at hsh
  obtain ⟨-, hform⟩ := hsh
  cases hv : v.val with
  | scalar sv =>
    rw [hv] at hform
    cases hv' : v'.val with
    | scalar _ => simp [nodupIdx, hv']
    | indexed _ => rw [hv'] at hform; simp at hform
  | indexed es =>
    rw [hv] at hform
    cases hv' : v'.val with
    | scalar _ => rw [hv'] at hform; simp at hform
    | indexed es' =>
      rw [hv'] at hform
      simp only [beq_iff_eq] at hform
      simp only [nodupIdx, hv, hv'] at h ⊢
      rw [← hform]
      exact h

mutual

theorem wfTree_of_sameShape : ∀ (b b' : PBlock), wfTree b = true →
    sameShape b b' = true → wfTree b' = true
  | .mk n d vs subs na ui, .mk n' d' vs' subs' na' ui' => by
    intro hwf hsh
    obtain ⟨rfl, rfl, rfl, rfl, hvs, hsubs⟩ :=
      sameShape_parts n d vs subs na ui n' d' vs' subs' na' ui' hsh
    cases ui with
    | none => rw [wfTree_ui_none] at hwf; cases hwf
    | some cfg =>
      obtain ⟨h1, h2, h3, h4, h5⟩ := wfTree_parts n d vs subs na cfg hwf
      simp only [wfTree, Bool.and_eq_true]
      refine ⟨⟨⟨⟨h1, ?_⟩, ?_⟩, ?_⟩, ?_⟩
      · rw [List.all_eq_true]
        intro e he
        obtain ⟨v, hv, hni⟩ := h2 e he
        obtain ⟨v', hv', hshv⟩ := varsShape_lookup vs vs' e.name v hvs hv
        rw [show (List.find? (fun p => p.1 == e.name) vs').map (·.2) =
          lookupVarL vs' e.name from rfl, hv']
        exact nodupIdx_of_varShape v v' hshv hni
      · rw [← varsShape_names vs vs' hvs]
        exact h3
      · rw [← sameShapeList_names subs subs' hsubs]
        exact h4
      · exact wfForest_of_sameShape subs subs' h5 hsubs

theorem wfForest_of_sameShape : ∀ (l l' : List PBlock),
    wfForest l = true → sameShapeList l l' = true → wfForest l' = true
  | [], [] => by intro _ _; rfl
  | [], c' :: tl' => by intro _ h; simp [sameShapeList] at h
  | c :: tl, [] => by intro _ h; simp [sameShapeList] at h
  | c :: tl, c' :: tl' => by
    intro hwf hsh
    simp only [wfForest, Bool.and_eq_true] at hwf ⊢
    simp only [sameShapeList, Bool.and_eq_true] at hsh
    exact ⟨wfTree_of_sameShape c c' hwf.1 hsh.1,
      wfForest_of_sameShape tl tl' hwf.2 hsh.2⟩

end

/-- List-level child lookup (the `subBlocks` component of
`PBlock.lookupSub`). -/
def lookupSubL (l : List PBlock) (n : String) : Option PBlock :=
  l.find? (fun sb => sb.name == n)

theorem lookupSub_eq_L (b : PBlock) (n : String) :
    b.lookupSub n = lookupSubL b.subBlocks n := rfl

theorem setSub_fields (b : PBlock) (n : String) (c : PBlock) :
    (b.setSub n c).name = b.name ∧ (b.setSub n c).docstr = b.docstr ∧
    (b.setSub n c).ui = b.ui ∧ (b.setSub n c).vars = b.vars ∧
    (b.setSub n c).noneAttrs = b.noneAttrs ∧
    (b.setSub n c).subBlocks = replaceSub b.subBlocks n c := by
  cases b
  exact ⟨rfl, rfl, rfl, rfl, rfl, rfl⟩

theorem replaceSub_names : ∀ (l : List PBlock) (n : String) (c : PBlock),
    c.name = n → (replaceSub l n c).map PBlock.name = l.map PBlock.name := by
  intro l
  induction l with
  | nil => intro n c _; rfl
  | cons sb tl ih =>
    intro n c hc
    rw [replaceSub]
    cases hn : sb.name == n with
    | true =>
      simp only [if_true, List.map_cons]
      rw [hc, eq_of_beq hn]
    | false =>
      simp only [Bool.false_eq_true, if_false, List.map_cons]
      rw [ih n c hc]

theorem lookupSubL_replace_self : ∀ (l : List PBlock) (n : String)
    (c x : PBlock), c.name = n → lookupSubL l n = some x →
    lookupSubL (replaceSub l n c) n = some c := by
  intro l
  induction l with
  | nil => intro n c x _ h; simp [lookupSubL] at h
  | cons sb tl ih =>
    intro n c x hc h
    rw [replaceSub]
    cases hn : sb.name == n with
    | true =>
      simp only [if_true, lookupSubL, List.find?_cons]
      have : (c.name == n) = true := by rw [hc]; simp
      rw [this]
    | false =>
      simp only [Bool.false_eq_true, if_false, lookupSubL, List.find?_cons, hn]
      simp only [lookupSubL, List.find?_cons, hn] at h
      exact ih n c x hc h

theorem lookupSubL_replace_ne : ∀ (l : List PBlock) (n m : String)
    (c : PBlock), c.name = n → m ≠ n →
    lookupSubL (replaceSub l n c) m = lookupSubL l m := by
  intro l
  induction l with
  | nil => intro n m c _ _; rfl
  | cons sb tl ih =>
    intro n m c hc hm
    rw [replaceSub]
    cases hn : sb.name == n with
    | true =>
      have hsbn : sb.name = n := eq_of_beq hn
      have hcm : (c.name == m) = false := by
        rcases hq : c.name == m with _ | _
        · rfl
        · exact absurd (hc ▸ eq_of_beq hq) (fun hx => hm hx.symm)
      have hsbm : (sb.name == m) = false := by
        rcases hq : sb.name == m with _ | _
        · rfl
        · exact absurd (hsbn ▸ eq_of_beq hq) (fun hx => hm hx.symm)
      simp only [if_true, lookupSubL, List.find?_cons, hcm, hsbm]
    | false =>
      simp only [Bool.false_eq_true, if_false, lookupSubL, List.find?_cons]
      cases hq : sb.name == m with
      | true => rfl
      | false =>
        have := ih n m c hc hm
        simp only [lookupSubL] at this
        exact this

theorem loadChildren_append : ∀ (xs ys : List DocBlock) (cur : PBlock)
    (key : String) (diff : VarDiff),
    loadChildren (xs ++ ys) cur key diff =
      match loadChildren xs cur key diff with
      | .ok (cur1, d1) => loadChildren ys cur1 key d1
      | .error e => .error e := by
  intro xs
  induction xs with
  | nil => intro ys cur key diff; rfl
  | cons x tl ih =>
    intro ys cur key diff
    rw [List.cons_append, loadChildren, loadChildren]
    cases hls : cur.lookupSub x.name with
    | none => rfl
    | some child =>
      dsimp only
      cases hlb : loadB x child (some key) diff with
      | error e => rfl
      | ok r =>
        obtain ⟨child', diff'⟩ := r
        dsimp only
        exact ih ys (cur.setSub x.name child') key diff'

theorem exportVarsSpecList_congr : ∀ (items : List VarConfEntry)
    (b b2 : PBlock),
    (∀ e ∈ items, b2.lookupVar e.name = b.lookupVar e.name) →
    exportVarsSpecList b2 items = exportVarsSpecList b items := by
  intro items
  induction items with
  | nil => intro b b2 _; rfl
  | cons it rest ih =>
    intro b b2 h
    simp only [exportVarsSpecList]
    rw [h it (List.mem_cons_self _ _),
      ih b b2 (fun e he => h e (List.mem_cons_of_mem _ he))]

theorem PBlock.docstr_mk (n : String) (d : Option String)
    (vs : List (String × PVar)) (subs : List PBlock) (na : List String)
    (ui : Option UIConfig) : (PBlock.mk n d vs subs na ui).docstr = d := rfl

theorem PBlock.vars_mk (n : String) (d : Option String)
    (vs : List (String × PVar)) (subs : List PBlock) (na : List String)
    (ui : Option UIConfig) : (PBlock.mk n d vs subs na ui).vars = vs := rfl

theorem PBlock.noneAttrs_mk (n : String) (d : Option String)
    (vs : List (String × PVar)) (subs : List PBlock) (na : List String)
    (ui : Option UIConfig) : (PBlock.mk n d vs subs na ui).noneAttrs = na := rfl

theorem sameShape_intro (b b2 : PBlock) (h1 : b.name = b2.name)
    (h2 : b.docstr = b2.docstr) (h3 : b.noneAttrs = b2.noneAttrs)
    (h4 : b.ui = b2.ui) (h5 : varsShape b.vars b2.vars = true)
    (h6 : sameShapeList b.subBlocks b2.subBlocks = true) :
    sameShape b b2 = true := by
  cases b with
  | mk n d vs subs na ui =>
    cases b2 with
    | mk n' d' vs' subs' na' ui' =>
      simp only [PBlock.name_mk, PBlock.docstr_mk, PBlock.noneAttrs_mk,
        PBlock.ui_mk, PBlock.vars_mk, PBlock.subBlocks_mk] at h1 h2 h3 h4 h5 h6
      simp only [sameShape, Bool.and_eq_true, beq_iff_eq]
      exact ⟨⟨⟨⟨⟨h1, h2⟩, h3⟩, h4⟩, h5⟩, h6⟩

theorem exportTree_of_ui (b : PBlock) (cfg : UIConfig)
    (h : b.ui = some cfg) :
    exportTree b = .mk b.name (some cfg.display_name) (some cfg.description)
      (some cfg.category) (some (exportVarsSpecList b cfg.vars))
      (exportForest b.subBlocks) := by
  cases b with
  | mk n d vs subs na ui =>
    rw [PBlock.ui_mk] at h
    cases ui with
    | none => exact Option.noConfusion h
    | some cfg' =>
      have hc : cfg' = cfg := Option.some.inj h
      subst hc
      rfl

theorem sameShapeList_lookup : ∀ (l l' : List PBlock),
    sameShapeList l l' = true → nodupBy (l.map PBlock.name) = true →
    ∀ c ∈ l, ∃ c', lookupSubL l' c.name = some c' ∧ sameShape c c' = true := by
  intro l
  induction l with
  | nil => intro l' _ _ c hc; simp at hc
  | cons x tl ih =>
    intro l' hsh hnd c hc
    cases l' with
    | nil => simp [sameShapeList] at hsh
    | cons x' tl' =>
      simp only [sameShapeList, Bool.and_eq_true] at hsh
      rw [List.map_cons] at hnd
      obtain ⟨hcont, hndtl⟩ := nodupBy_head x.name (tl.map PBlock.name) hnd
      have hxname : x'.name = x.name := (sameShape_name x x' hsh.1).symm
      rcases List.mem_cons.mp hc with heq | hmem
      · refine ⟨x', ?_, heq ▸ hsh.1⟩
        have hbeq : (x'.name == c.name) = true := by
          rw [heq, hxname]
          exact beq_self_eq_true _
        simp only [lookupSubL, List.find?_cons, hbeq]
      · have hxne : (x'.name == c.name) = false := by
          rcases hq : x'.name == c.name with _ | _
          · rfl
          · exfalso
            have hmemn : c.name ∈ tl.map PBlock.name :=
              List.mem_map.mpr ⟨c, hmem, rfl⟩
            rw [hxname] at hq
            have hcx : x.name = c.name := eq_of_beq hq
            rw [← hcx] at hmemn
            exact (not_mem_of_contains_false _ _ hcont) hmemn
        simp only [lookupSubL, List.find?_cons, hxne]
        exact ih tl' hsh.2 hndtl c hmem

theorem sameShapeList_reconstruct : ∀ (l l2 : List PBlock),
    l.map PBlock.name = l2.map PBlock.name →
    nodupBy (l.map PBlock.name) = true →
    (∀ c ∈ l, ∃ c'', lookupSubL l2 c.name = some c'' ∧
      sameShape c c'' = true ∧ exportTree c'' = exportTree c) →
    sameShapeList l l2 = true ∧ exportForest l2 = exportForest l := by
  intro l
  induction l with
  | nil =>
    intro l2 hn _ _
    cases l2 with
    | nil => exact ⟨rfl, rfl⟩
    | cons y tl2 => simp at hn
  | cons x tl ih =>
    intro l2 hn hnd hlook
    cases l2 with
    | nil => simp at hn
    | cons y tl2 =>
      simp only [List.map_cons, List.cons.injEq] at hn
      obtain ⟨hxy, htl⟩ := hn
      rw [List.map_cons] at hnd
      obtain ⟨hcont, hndtl⟩ := nodupBy_head x.name (tl.map PBlock.name) hnd
      have hnotmem := not_mem_of_contains_false _ _ hcont
      obtain ⟨c'', hfind, hshx, hexpx⟩ := hlook x (List.mem_cons_self _ _)
      have hybeq : (y.name == x.name) = true := by
        rw [← hxy]
        exact beq_self_eq_true _
      have hyc : y = c'' := by
        simp only [lookupSubL, List.find?_cons, hybeq] at hfind
        exact Option.some.inj hfind
      subst hyc
      have hlooktl : ∀ c ∈ tl, ∃ c'', lookupSubL tl2 c.name = some c'' ∧
          sameShape c c'' = true ∧ exportTree c'' = exportTree c := by
        intro c hc
        obtain ⟨c2, hfind', hsh', hexp'⟩ := hlook c (List.mem_cons_of_mem _ hc)
        have hne : (y.name == c.name) = false := by
          rcases hq : y.name == c.name with _ | _
          · rfl
          · exfalso
            have hmemn : c.name ∈ tl.map PBlock.name :=
              List.mem_map.mpr ⟨c, hc, rfl⟩
            have hxc : x.name = c.name := by
              rw [hxy]
              exact eq_of_beq hq
            rw [← hxc] at hmemn
            exact hnotmem hmemn
        refine ⟨c2, ?_, hsh', hexp'⟩
        simp only [lookupSubL, List.find?_cons, hne] at hfind'
        exact hfind'
      obtain ⟨hssl, hexf⟩ := ih tl2 htl hndtl hlooktl
      constructor
      · simp only [sameShapeList, Bool.and_eq_true]
        exact ⟨hshx, hssl⟩
      · show exportForest tl2 ++ [exportTree y] = exportForest tl ++ [exportTree x]
        rw [hexf, hexpx]

mutual

/-- Loading a block's own export back into a shape-identical block
succeeds, leaves the diff untouched, and reproduces both the shape and
the export of the original. -/
theorem loadB_rt : ∀ (b bcur : PBlock) (pk : Option String) (diff : VarDiff),
    wfTree b = true → sameShape b bcur = true →
    ∃ b2, loadB (exportTree b) bcur pk diff = Except.ok (b2, diff) ∧
      sameShape b b2 = true ∧ exportTree b2 = exportTree b
  | .mk n d vs subs na ui => by
    intro bcur pk diff hwf hsh
    cases bcur with
    | mk n' d' vs' subs' na' ui' =>
      obtain ⟨hn, hd, hna, hui, hvs, hsubs⟩ :=
        sameShape_parts n d vs subs na ui n' d' vs' subs' na' ui' hsh
      subst hn
      subst hd
      subst hna
      subst hui
      cases ui with
      | none => rw [wfTree_ui_none] at hwf; cases hwf
      | some cfg =>
        obtain ⟨h1, h2, h3, h4, h5⟩ := wfTree_parts n d vs subs na cfg hwf
        obtain ⟨bcur2, hlv, hb2n, hb2d, hb2ui, hb2subs, hb2na, hb2sh,
            hb2eq, hb2fr⟩ :=
          loadVarsLoop_rt cfg.vars (PBlock.mk n d vs subs na (some cfg))
            (PBlock.mk n d vs' subs' na (some cfg)) []
            (fun e he => by
              obtain ⟨v, hfind, hni⟩ := h2 e he
              exact ⟨v, hfind, hni⟩)
            h1 h3 hvs
        rw [PBlock.name_mk] at hb2n
        rw [PBlock.docstr_mk] at hb2d
        rw [PBlock.ui_mk] at hb2ui
        rw [PBlock.subBlocks_mk] at hb2subs
        rw [PBlock.noneAttrs_mk] at hb2na
        rw [PBlock.vars_mk] at hb2sh
        have hchild : ∀ c ∈ subs, ∃ c', bcur2.lookupSub c.name = some c' ∧
            sameShape c c' = true := by
          intro c hc
          obtain ⟨c', hc', hshc⟩ := sameShapeList_lookup subs subs' hsubs h4 c hc
          refine ⟨c', ?_, hshc⟩
          rw [lookupSub_eq_L, hb2subs]
          exact hc'
        obtain ⟨cur2, hlc, hcn, hcd, hcui, hcv, hcna, hcnames, hclook, hcfr⟩ :=
          loadForest_rt subs bcur2
            (blockKey pk (PBlock.mk n d vs' subs' na (some cfg))) diff
            h5 h4 hchild
        have hexp : exportTree (PBlock.mk n d vs subs na (some cfg)) =
            DocBlock.mk n (some cfg.display_name) (some cfg.description)
              (some cfg.category)
              (some (exportVarsSpecList
                (PBlock.mk n d vs subs na (some cfg)) cfg.vars))
              (exportForest subs) := rfl
        have hlvv : loadVariables
            (exportVarsSpecList (PBlock.mk n d vs subs na (some cfg)) cfg.vars)
            cfg (PBlock.mk n d vs' subs' na (some cfg)) =
            Except.ok (bcur2, ([] : List MissingItem), ([] : List String)) := hlv
        have hnames2 : subs.map PBlock.name = cur2.subBlocks.map PBlock.name := by
          rw [hcnames, hb2subs, ← sameShapeList_names subs subs' hsubs]
        have hlook2 : ∀ c ∈ subs, ∃ c'', lookupSubL cur2.subBlocks c.name =
            some c'' ∧ sameShape c c'' = true ∧
            exportTree c'' = exportTree c := by
          intro c hc
          obtain ⟨c'', hx, hy, hz⟩ := hclook c hc
          refine ⟨c'', ?_, hy, hz⟩
          rw [← lookupSub_eq_L]
          exact hx
        obtain ⟨hssl, hexf⟩ :=
          sameShapeList_reconstruct subs cur2.subBlocks hnames2 h4 hlook2
        have hname2 : cur2.name = n := by rw [hcn, hb2n]
        have hui2 : cur2.ui = some cfg := by rw [hcui, hb2ui]
        refine ⟨cur2, ?_, ?_, ?_⟩
        · rw [hexp]
          simp only [loadB, PBlock.ui_mk]
          rw [hlvv]
          exact hlc
        · apply sameShape_intro
          · rw [PBlock.name_mk, hname2]
          · rw [PBlock.docstr_mk, hcd, hb2d]
          · rw [PBlock.noneAttrs_mk, hcna, hb2na]
          · rw [PBlock.ui_mk, hui2]
          · rw [PBlock.vars_mk, hcv]
            exact hb2sh
          · rw [PBlock.subBlocks_mk]
            exact hssl
        · have hvcongr : exportVarsSpecList cur2 cfg.vars =
              exportVarsSpecList (PBlock.mk n d vs subs na (some cfg))
                cfg.vars :=
            exportVarsSpecList_congr cfg.vars
              (PBlock.mk n d vs subs na (some cfg)) cur2
              (fun e he => by
                rw [lookupVar_eq_L, hcv, ← lookupVar_eq_L]
                exact hb2eq e he)
          rw [exportTree_of_ui cur2 cfg hui2, hexp, hvcongr, hexf, hname2]
termination_by b => 2 * b.weight
decreasing_by
  simp only [PBlock.weight]
  omega

/-- Loading the reversed exports of a list of children into a parent
whose children match them in shape succeeds, leaves the diff untouched,
touches no other field of the parent, and reproduces each child's shape
and export. -/
theorem loadForest_rt : ∀ (l : List PBlock) (cur : PBlock) (key : String)
    (diff : VarDiff), wfForest l = true →
    nodupBy (l.map PBlock.name) = true →
    (∀ c ∈ l, ∃ c', cur.lookupSub c.name = some c' ∧ sameShape c c' = true) →
    ∃ cur2, loadChildren (exportForest l) cur key diff =
        Except.ok (cur2, diff) ∧
      cur2.name = cur.name ∧ cur2.docstr = cur.docstr ∧ cur2.ui = cur.ui ∧
      cur2.vars = cur.vars ∧ cur2.noneAttrs = cur.noneAttrs ∧
      cur2.subBlocks.map PBlock.name = cur.subBlocks.map PBlock.name ∧
      (∀ c ∈ l, ∃ c'', cur2.lookupSub c.name = some c'' ∧
        sameShape c c'' = true ∧ exportTree c'' = exportTree c) ∧
      (∀ m, m ∉ l.map PBlock.name → cur2.lookupSub m = cur.lookupSub m)
  | [] => by
    intro cur key diff _ _ _
    refine ⟨cur, rfl, rfl, rfl, rfl, rfl, rfl, rfl, ?_, fun m _ => rfl⟩
    intro c hc
    simp at hc
  | c :: tl => by
    intro cur key diff hwf hnd hlook
    have hwfp : wfTree c = true ∧ wfForest tl = true := by
      simpa only [wfForest, Bool.and_eq_true] using hwf
    rw [List.map_cons] at hnd
    obtain ⟨hcont, hndtl⟩ := nodupBy_head c.name (tl.map PBlock.name) hnd
    have hnotmem : c.name ∉ tl.map PBlock.name :=
      not_mem_of_contains_false _ _ hcont
    obtain ⟨cur1, hlc1, h1n, h1d, h1ui, h1v, h1na, h1names, h1look, h1fr⟩ :=
      loadForest_rt tl cur key diff hwfp.2 hndtl
        (fun ct hct => hlook ct (List.mem_cons_of_mem _ hct))
    obtain ⟨c', hc', hshc'⟩ := hlook c (List.mem_cons_self _ _)
    have hcur1c : cur1.lookupSub c.name = some c' := by
      rw [h1fr c.name hnotmem]
      exact hc'
    obtain ⟨c'', hlbc, hshc'', hexpc''⟩ :=
      loadB_rt c c' (some key) diff hwfp.1 hshc'
    have hcname : c''.name = c.name := (sameShape_name c c'' hshc'').symm
    have hcur1cL : lookupSubL cur1.subBlocks c.name = some c' := by
      rw [← lookupSub_eq_L]
      exact hcur1c
    obtain ⟨s1, s2, s3, s4, s5, s6⟩ := setSub_fields cur1 c.name c''
    refine ⟨cur1.setSub c.name c'', ?_, s1.trans h1n, s2.trans h1d,
      s3.trans h1ui, s4.trans h1v, s5.trans h1na, ?_, ?_, ?_⟩
    · rw [show exportForest (c :: tl) = exportForest tl ++ [exportTree c]
        from rfl, loadChildren_append, hlc1]
      dsimp only
      simp only [loadChildren, exportTree_name]
      rw [hcur1c]
      dsimp only
      rw [hlbc]
    · rw [s6, replaceSub_names cur1.subBlocks c.name c'' hcname]
      exact h1names
    · intro x hx
      rcases List.mem_cons.mp hx with heq | hx'
      · subst heq
        refine ⟨c'', ?_, hshc'', hexpc''⟩
        rw [lookupSub_eq_L, s6]
        exact lookupSubL_replace_self cur1.subBlocks x.name c'' c' hcname hcur1cL
      · obtain ⟨x'', ha, hb, hc2⟩ := h1look x hx'
        have hxne : x.name ≠ c.name := by
          intro hcontra
          apply hnotmem
          rw [← hcontra]
          exact List.mem_map.mpr ⟨x, hx', rfl⟩
        refine ⟨x'', ?_, hb, hc2⟩
        rw [lookupSub_eq_L, s6,
          lookupSubL_replace_ne cur1.subBlocks c.name x.name c'' hcname hxne,
          ← lookupSub_eq_L]
        exact ha
    · intro m hm
      rw [List.map_cons] at hm
      have hm1 : m ≠ c.name := fun h => hm (h ▸ List.mem_cons_self _ _)
      have hm2 : m ∉ tl.map PBlock.name := fun h => hm (List.mem_cons_of_mem _ h)
      rw [lookupSub_eq_L, s6,
        lookupSubL_replace_ne cur1.subBlocks c.name m c'' hcname hm1,
        ← lookupSub_eq_L, h1fr m hm2]
termination_by l => 2 * weightList l + 1
decreasing_by
  · have hc := PBlock.weight_pos c
    simp only [weightList]
    omega
  · have hc := PBlock.weight_pos c
    simp only [weightList]
    omega

end

/-- C1: Round-trip.  For a flowsheet interface whose bound block tree
has an interface attached at every node (`wfTree`, which also makes the
declared-variable and child-name lookups unambiguous), saving produces
a document whose `update` into an identical fresh tree (`sameShape`:
the same tree up to stored variable values) succeeds, reproduces every
exported variable's value — scalar and indexed — so that the fresh
tree's export equals the original's, records no missing/extra
variables, and makes `as_dict()` of the loaded interface equal
`as_dict()` of the original. -/
theorem c1_roundtrip (fs fresh : FState) (b b' : PBlock) (doc : RootDoc)
    (hb : fs.block = some b) (hwf : wfTree b = true)
    (hb' : fresh.block = some b') (hsh : sameShape b b' = true)
    (hsave : save fs = .ok doc) :
    ∃ st' b2, loadDoc doc fresh = .ok st' ∧ st'.block = some b2 ∧
      sameShape b b2 = true ∧ exportTree b2 = exportTree b ∧
      st'.varDiff = some ⟨[], []⟩ ∧ asDict st' = asDict fs := by
  have hdoc : doc = ⟨"__root__", some [exportTree b], fs.meta⟩ := by
    have h1 : save fs =
        Except.ok (⟨"__root__", some [exportTree b], fs.meta⟩ : RootDoc) :=
      asDict_spec fs b hb hwf
    rw [h1] at hsave
    exact (Except.ok.inj hsave).symm
  subst hdoc
  obtain ⟨b2, hload, hshb2, hexpb2⟩ := loadB_rt b b' none ⟨[], []⟩ hwf hsh
  refine ⟨FState.mk (some b2) fresh.savedOptions fs.meta (some ⟨[], []⟩)
      fresh.actions fresh.actionsDeps
      (if solveAction ∈ fresh.actionsRun
        then fresh.actionsRun.erase solveAction else fresh.actionsRun),
    b2, ?_, rfl, hshb2, hexpb2, rfl, ?_⟩
  · unfold loadDoc update
    dsimp only [schemaValidate]
    rw [hb']
    dsimp only
    rw [hload]
  · rw [asDict_spec _ b2 rfl (wfTree_of_sameShape b b2 hwf hshb2),
      asDict_spec fs b hb hwf, hexpb2]

def c1cfgUnit : UIConfig :=
  ⟨"Unit 1", "treatment unit", "default", [⟨"w", none, none, none⟩]⟩

def c1cfgRoot : UIConfig :=
  ⟨"Flowsheet", "demo flowsheet", "default", [⟨"v", none, none, none⟩]⟩

/-- The original tree: a scalar variable at the root and an indexed
variable on the child, both interfaced. -/
def c1b : PBlock :=
  .mk "fs" none [("v", ⟨.scalar (.num 3), some "m", none⟩)]
    [.mk "unit" none
      [("w", ⟨.indexed [([.num 0, .str "dye"], .num 12),
                        ([.num 1, .str "tds"], .num 34)], none, none⟩)]
      [] [] (some c1cfgUnit)]
    [] (some c1cfgRoot)

/-- The identical fresh tree: same shape, all values zeroed. -/
def c1fresh0 : PBlock :=
  .mk "fs" none [("v", ⟨.scalar (.num 0), some "m", none⟩)]
    [.mk "unit" none
      [("w", ⟨.indexed [([.num 0, .str "dye"], .num 0),
                        ([.num 1, .str "tds"], .num 0)], none, none⟩)]
      [] [] (some c1cfgUnit)]
    [] (some c1cfgRoot)

def c1fs : FState := { flowsheetNew demoOpts with block := some c1b }

def c1freshFs : FState := { flowsheetNew demoOpts with block := some c1fresh0 }

def c1doc : RootDoc := ⟨"__root__", some [exportTree c1b], []⟩

theorem c1_witness :
    ∃ st' b2, loadDoc c1doc c1freshFs = Except.ok st' ∧ st'.block = some b2 ∧
      sameShape c1b b2 = true ∧ exportTree b2 = exportTree c1b ∧
      st'.varDiff = some ⟨[], []⟩ ∧ asDict st' = asDict c1fs :=
  c1_roundtrip c1fs c1freshFs c1b c1fresh0 c1doc rfl (by decide) rfl
    (by decide) (asDict_spec c1fs c1b rfl (by decide))
